import Mathlib

/-!
Verification of the natural-language specification of the
nostr_social_decentralized_network repository against a shallow embedding of
its Python sources (advanced_nips.py, main_basics_functions.py,
sqlite_local_database.py, nostr_testing_database.py).

External collaborators (the SHA-256 digest, JSON canonical serialization,
the signature scheme, the network transport and the system clock) are
modelled as explicit function parameters, exactly as the specification
declares them out of scope.  Everything the repository itself computes
(the proof-of-work loop, the leading-zero-bit count, the SQLite insert and
update statements, the follow-set accumulation, the pool deduplication,
the chat-room assembly, the relay-info fallback, and the full bech32 npub
encode/decode pipeline including convertbits and the BCH checksum) is
embedded as executable Lean definitions translated statement by statement
from the source.
-/

/-! ## Proof-of-work miner (advanced_nips.py)

The Python source:

  def count_leading_zero_bits(hex_string):
      binary_string = bin(int(hex_string, 16))[2:].zfill(256)
      return len(binary_string) - len(binary_string.lstrip('0'))

  def mine_note(note, difficulty):
      nonce = 0
      while True:
          note['tags'] = [['nonce', str(nonce), str(difficulty)]]
          note['created_at'] = int(time.time())
          note_json = json.dumps(note, separators=(',', ':'), sort_keys=True)
          note_id = hashlib.sha256(note_json.encode()).hexdigest()
          if count_leading_zero_bits(note_id) >= difficulty:
              note['id'] = note_id
              return note
          nonce += 1

The unbounded while-loop is embedded with an explicit fuel argument: the
claim is conditional on the loop returning, which is exactly the shape
"mine_note ... fuel = some n".  json.dumps and hashlib.sha256 are opaque
collaborators (parameters ser and sha256hex); time.time is the parameter
timeFn, indexed by the attempt number.
-/

/-- Value of one hexadecimal digit, as accepted by Python int(_, 16). -/
def hexDigitValue (c : Char) : Option Nat :=
  if '0' ≤ c ∧ c ≤ '9' then some (c.toNat - '0'.toNat)
  else if 'a' ≤ c ∧ c ≤ 'f' then some (c.toNat - 'a'.toNat + 10)
  else if 'A' ≤ c ∧ c ≤ 'F' then some (c.toNat - 'A'.toNat + 10)
  else none

/-- Accumulating base-16 parse of a digit list. -/
def hexToNatCore : List Char → Nat → Option Nat
  | [], acc => some acc
  | c :: cs, acc =>
    match hexDigitValue c with
    | some v => hexToNatCore cs (16 * acc + v)
    | none => none

/-- Python int(s, 16): fails on the empty string or any non-hex character. -/
def hexToNatOpt (s : String) : Option Nat :=
  if s.data.isEmpty then none else hexToNatCore s.data 0

/-- Binary digits of n, most significant first, as produced by Python
bin(n)[2:] for n > 0.  The first argument is structural fuel; fuel = n is
always sufficient because the number of binary digits of n is at most n
for n ≥ 1. -/
def binDigitsF : Nat → Nat → List Char
  | 0, _ => []
  | _ + 1, 0 => []
  | fuel + 1, n + 1 =>
    binDigitsF fuel ((n + 1) / 2) ++ [if (n + 1) % 2 = 1 then '1' else '0']

/-- Python bin(n)[2:], including the special case bin(0)[2:] = "0". -/
def natToBinChars (n : Nat) : List Char :=
  if n = 0 then ['0'] else binDigitsF n n

/-- Python str.zfill: left-pad with '0' to the requested width. -/
def zfillChars (l : List Char) (w : Nat) : List Char :=
  List.replicate (w - l.length) '0' ++ l

/-- Python str.lstrip('0'). -/
def lstripZeros : List Char → List Char
  | [] => []
  | c :: cs => if c = '0' then lstripZeros cs else c :: cs

/-- advanced_nips.count_leading_zero_bits.  A non-hex input makes the
Python version raise inside int(); that branch is mapped to 0 and is never
reached on a hex digest. -/
def count_leading_zero_bits (s : String) : Nat :=
  match hexToNatOpt s with
  | none => 0
  | some v =>
    let b := zfillChars (natToBinChars v) 256
    b.length - (lstripZeros b).length

/-- A note dictionary as manipulated by mine_note.  The id field is absent
(none) on a fresh template and is written only when mining succeeds. -/
structure Note where
  pubkey : String
  created_at : Int
  kind : Nat
  tags : List (List String)
  content : String
  id : Option String
deriving Repr, DecidableEq

/-- One iteration's update of the note dictionary before hashing: the
nonce tag is overwritten and created_at is refreshed from the clock. -/
def mineCandidate (timeFn : Nat → Int) (difficulty nonce : Nat) (note : Note) : Note :=
  { note with
      tags := [["nonce", toString nonce, toString difficulty]],
      created_at := timeFn nonce }

/-- The mining loop of advanced_nips.mine_note, with fuel making the
unbounded while-loop a total function. -/
def mineNoteAux (ser : Note → String) (sha256hex : String → String) (timeFn : Nat → Int)
    (difficulty : Nat) : Note → Nat → Nat → Option Note
  | _, _, 0 => none
  | note, nonce, fuel + 1 =>
    let cand := mineCandidate timeFn difficulty nonce note
    let noteId := sha256hex (ser cand)
    if difficulty ≤ count_leading_zero_bits noteId then
      some { cand with id := some noteId }
    else
      mineNoteAux ser sha256hex timeFn difficulty cand (nonce + 1) fuel

/-- advanced_nips.mine_note: start at nonce 0. -/
def mine_note (ser : Note → String) (sha256hex : String → String) (timeFn : Nat → Int)
    (note : Note) (difficulty fuel : Nat) : Option Note :=
  mineNoteAux ser sha256hex timeFn difficulty note 0 fuel

theorem mineCandidate_id (timeFn : Nat → Int) (d nonce : Nat) (note : Note) :
    (mineCandidate timeFn d nonce note).id = note.id := rfl

theorem mineNoteAux_spec (ser : Note → String) (sha : String → String) (timeFn : Nat → Int)
    (d : Nat) :
    ∀ fuel note nonce n, mineNoteAux ser sha timeFn d note nonce fuel = some n →
      ∃ body : Note, body.id = note.id ∧
        n = { body with id := some (sha (ser body)) } ∧
        d ≤ count_leading_zero_bits (sha (ser body)) := by
  intro fuel
  induction fuel with
  | zero => intro note nonce n h; simp [mineNoteAux] at h
  | succ fuel ih =>
    intro note nonce n h
    rw [mineNoteAux] at h
    by_cases hd : d ≤ count_leading_zero_bits (sha (ser (mineCandidate timeFn d nonce note)))
    · rw [if_pos hd] at h
      refine ⟨mineCandidate timeFn d nonce note, mineCandidate_id _ _ _ _, ?_, hd⟩
      exact (Option.some.inj h).symm
    · rw [if_neg hd] at h
      obtain ⟨body, hid, hn, hlt⟩ := ih _ _ _ h
      exact ⟨body, hid.trans (mineCandidate_id _ _ _ _), hn, hlt⟩

/-- C1. For every note template and target difficulty d, when mine_note
returns it returns a note whose id is the hex digest of the canonical
serialization of the note body it mined (the body preserving the
template's id field), and that digest has at least d leading zero bits
when read as a 256-bit big-endian integer; and for d = 0 it returns on the
very first attempt, with nonce 0. -/
theorem c1_mine_note_pow (ser : Note → String) (sha : String → String) (timeFn : Nat → Int)
    (note : Note) (d fuel : Nat) :
    (∀ n, mine_note ser sha timeFn note d fuel = some n →
      ∃ body : Note, body.id = note.id ∧
        n = { body with id := some (sha (ser body)) } ∧
        d ≤ count_leading_zero_bits (sha (ser body))) ∧
    mine_note ser sha timeFn note 0 (fuel + 1) =
      some { mineCandidate timeFn 0 0 note with
              id := some (sha (ser (mineCandidate timeFn 0 0 note))) } := by
  constructor
  · intro n h
    exact mineNoteAux_spec ser sha timeFn d fuel note 0 n h
  · rw [mine_note, mineNoteAux, if_pos (Nat.zero_le _)]

/-- A concrete note template for witnesses. -/
def noteEx : Note :=
  { pubkey := "pk", created_at := 0, kind := 1, tags := [], content := "hello", id := none }

set_option maxRecDepth 8000 in
/-- Witness for C1: a concrete run with a constant stand-in digest "ab"
and difficulty 0 actually returns at nonce 0, and the theorem applies to
it with its hypothesis discharged by evaluation. -/
theorem c1_mine_note_pow_witness :
    ∃ body : Note, body.id = noteEx.id ∧
      ({ noteEx with tags := [["nonce", "0", "0"]], created_at := 7, id := some "ab" } : Note)
        = { body with id := some ((fun _ => "ab") ((fun _ => "s") body : String)) } ∧
      0 ≤ count_leading_zero_bits ((fun _ => "ab") ((fun _ => "s") body : String)) :=
  (c1_mine_note_pow (fun _ => "s") (fun _ => "ab") (fun _ => 7) noteEx 0 1).1
    { noteEx with tags := [["nonce", "0", "0"]], created_at := 7, id := some "ab" }
    (by rfl)

/-! ## EventStore (sqlite_local_database.py)

The save functions are plain SQL INSERT statements into tables whose first
column is declared PRIMARY KEY (notes.id, profiles.pubkey).  An INSERT
whose key already exists makes sqlite3 raise IntegrityError ("UNIQUE
constraint failed") and leaves the table unchanged; there is no ON
CONFLICT clause.  A table is embedded as the list of its rows in
insertion order, and an INSERT as an Except value: error exactly when the
primary key is already present, otherwise the appended table. -/

/-- A row of the profiles table (kind-0 metadata), column order as in the
CREATE TABLE statement. -/
structure ProfileRow where
  pubkey : String
  name : String
  about : String
  picture : String
  banner : String
  website : String
  lud06 : String
  lud16 : String
  display_name : String
  timestamp : Int
deriving Repr, DecidableEq

/-- A row of the notes table; tags are stored serialized as TEXT. -/
structure NoteRow where
  id : String
  pubkey : String
  content : String
  tags : String
  kind : Nat
  timestamp : Int
deriving Repr, DecidableEq

/-- sqlite_local_database.save_note: INSERT INTO notes, failing on a
duplicate primary key (notes.id). -/
def save_note (table : List NoteRow) (r : NoteRow) : Except String (List NoteRow) :=
  if table.any (fun x => x.id == r.id) then
    Except.error "UNIQUE constraint failed: notes.id"
  else
    Except.ok (table ++ [r])

/-- sqlite_local_database.save_profile: INSERT INTO profiles, failing on a
duplicate primary key (profiles.pubkey). -/
def save_profile (table : List ProfileRow) (r : ProfileRow) : Except String (List ProfileRow) :=
  if table.any (fun x => x.pubkey == r.pubkey) then
    Except.error "UNIQUE constraint failed: profiles.pubkey"
  else
    Except.ok (table ++ [r])

/-- sqlite_local_database.update_profile: UPDATE profiles SET every
non-key column WHERE pubkey matches.  There is no timestamp comparison
anywhere in the statement. -/
def update_profile (table : List ProfileRow)
    (pubkey name about picture banner website lud06 lud16 display_name : String)
    (timestamp : Int) : List ProfileRow :=
  table.map (fun r =>
    if r.pubkey == pubkey then
      { pubkey := r.pubkey, name := name, about := about, picture := picture,
        banner := banner, website := website, lud06 := lud06, lud16 := lud16,
        display_name := display_name, timestamp := timestamp }
    else r)

/-- A concrete note row for the C2 counterexample. -/
def noteRowEx : NoteRow :=
  { id := "id1", pubkey := "pk", content := "hi", tags := "[]", kind := 1, timestamp := 100 }

/-- A concrete profile row for the C2 counterexample. -/
def profileRowEx : ProfileRow :=
  { pubkey := "pk1", name := "n", about := "a", picture := "p", banner := "b",
    website := "w", lud06 := "l6", lud16 := "l16", display_name := "d", timestamp := 10 }

/-- C2 counterexample: applying save twice for the same id is not a
no-op; the second INSERT hits the primary-key constraint and fails, both
for notes and for profiles. -/
theorem c2_save_twice_counterexample :
    save_note [] noteRowEx = Except.ok [noteRowEx] ∧
    save_note [noteRowEx] noteRowEx = Except.error "UNIQUE constraint failed: notes.id" ∧
    save_profile [] profileRowEx = Except.ok [profileRowEx] ∧
    save_profile [profileRowEx] profileRowEx
      = Except.error "UNIQUE constraint failed: profiles.pubkey" := by
  refine ⟨rfl, ?_, rfl, ?_⟩ <;> rfl

/-- C2 amended: the save operations are not idempotent.  Whenever a save
succeeds, saving the same row again into the resulting table fails with
the uniqueness-constraint error (so the duplicate application is rejected
rather than silently absorbed; the rows themselves are unchanged only
because the failing INSERT inserts nothing). -/
theorem c2_save_second_insert_fails (tn tn' : List NoteRow) (r : NoteRow)
    (tp tp' : List ProfileRow) (p : ProfileRow) :
    (save_note tn r = Except.ok tn' →
      save_note tn' r = Except.error "UNIQUE constraint failed: notes.id") ∧
    (save_profile tp p = Except.ok tp' →
      save_profile tp' p = Except.error "UNIQUE constraint failed: profiles.pubkey") := by
  constructor
  · intro h
    rw [save_note] at h
    split at h
    · exact absurd h (by simp)
    · have hApp : tn' = tn ++ [r] := by
        have := Except.ok.inj h
        exact this.symm
      subst hApp
      rw [save_note, if_pos]
      simp [List.any_append]
  · intro h
    rw [save_profile] at h
    split at h
    · exact absurd h (by simp)
    · have hApp : tp' = tp ++ [p] := by
        have := Except.ok.inj h
        exact this.symm
      subst hApp
      rw [save_profile, if_pos]
      simp [List.any_append]

/-- Witness for the amended C2 at concrete tables. -/
theorem c2_save_second_insert_fails_witness :
    save_note [noteRowEx] noteRowEx = Except.error "UNIQUE constraint failed: notes.id" ∧
    save_profile [profileRowEx] profileRowEx
      = Except.error "UNIQUE constraint failed: profiles.pubkey" :=
  ⟨(c2_save_second_insert_fails [] [noteRowEx] noteRowEx [] [profileRowEx] profileRowEx).1 rfl,
   (c2_save_second_insert_fails [] [noteRowEx] noteRowEx [] [profileRowEx] profileRowEx).2 rfl⟩

/-- C4 counterexample: a stored profile with timestamp 10 receives an
update carrying timestamp 5 (not strictly greater) and is overwritten
anyway, refuting the claimed last-write-wins-by-event-time guard. -/
theorem c4_update_profile_counterexample :
    (5 : Int) ≤ 10 ∧
    update_profile [profileRowEx] "pk1" "new_name" "a" "p" "b" "w" "l6" "l16" "d" 5
      = [{ pubkey := "pk1", name := "new_name", about := "a", picture := "p",
           banner := "b", website := "w", lud06 := "l6", lud16 := "l16",
           display_name := "d", timestamp := 5 }] ∧
    update_profile [profileRowEx] "pk1" "new_name" "a" "p" "b" "w" "l6" "l16" "d" 5
      ≠ [profileRowEx] := by
  refine ⟨by norm_num, rfl, by decide⟩

/-- C4 amended: update_profile overwrites every column of every row whose
pubkey matches, unconditionally -- the stored and incoming timestamps are
never compared -- and leaves rows with other pubkeys untouched. -/
theorem c4_update_profile_unconditional (table : List ProfileRow)
    (pubkey name about picture banner website lud06 lud16 display_name : String)
    (timestamp : Int) :
    ∀ r ∈ update_profile table pubkey name about picture banner website
        lud06 lud16 display_name timestamp,
      (r.pubkey = pubkey →
        r.name = name ∧ r.about = about ∧ r.picture = picture ∧ r.banner = banner ∧
        r.website = website ∧ r.lud06 = lud06 ∧ r.lud16 = lud16 ∧
        r.display_name = display_name ∧ r.timestamp = timestamp) ∧
      (r.pubkey ≠ pubkey → r ∈ table) := by
  intro r hr
  rw [update_profile, List.mem_map] at hr
  obtain ⟨a, ha, hEq⟩ := hr
  by_cases hp : a.pubkey == pubkey
  · rw [if_pos hp] at hEq
    subst hEq
    simp only [beq_iff_eq] at hp
    exact ⟨fun _ => ⟨rfl, rfl, rfl, rfl, rfl, rfl, rfl, rfl, rfl⟩, fun hne => absurd hp hne⟩
  · rw [if_neg hp] at hEq
    subst hEq
    exact ⟨fun hEq2 => absurd hEq2 (by simpa using hp), fun _ => ha⟩

/-- Witness for the amended C4 at a concrete table and row. -/
theorem c4_update_profile_unconditional_witness :
    ({ pubkey := "pk1", name := "new_name", about := "a", picture := "p",
       banner := "b", website := "w", lud06 := "l6", lud16 := "l16",
       display_name := "d", timestamp := 5 } : ProfileRow).name = "new_name" ∧
    ({ pubkey := "pk1", name := "new_name", about := "a", picture := "p",
       banner := "b", website := "w", lud06 := "l6", lud16 := "l16",
       display_name := "d", timestamp := 5 } : ProfileRow).timestamp = 5 := by
  have h := c4_update_profile_unconditional [profileRowEx] "pk1" "new_name" "a" "p" "b"
    "w" "l6" "l16" "d" 5
    { pubkey := "pk1", name := "new_name", about := "a", picture := "p",
      banner := "b", website := "w", lud06 := "l6", lud16 := "l16",
      display_name := "d", timestamp := 5 } (by decide)
  have h2 := h.1 rfl
  exact ⟨h2.1, h2.2.2.2.2.2.2.2.2⟩

/-! ## Follow list derivation (main_basics_functions.fetch_existing_follows)

The Python loop drains the message pool and, for every kind-3 event it
sees, adds tag[1] of every tag whose tag[0] is "p" into one Python set;
it returns list(followed_users).  Nothing selects the latest event: the
result is the union over all delivered kind-3 events.  A tag list whose
indexing raises IndexError aborts the whole function into its except
branch, embedded as an Except.error.  The Python set is embedded as a
duplicate-free insertion-ordered list; only membership is meaningful
because Python set iteration order is unspecified. -/

/-- An event message as delivered by the relay message pool (the fields
the source reads). -/
structure NEvent where
  id : String
  pubkey : String
  content : String
  kind : Nat
  tags : List (List String)
  created_at : Int
deriving Repr, DecidableEq

/-- Python set.add on the embedding of a set as a duplicate-free list. -/
def setAdd (s : List String) (x : String) : List String :=
  if x ∈ s then s else s ++ [x]

/-- The inner tag loop: for tag in event.tags: if tag[0] == "p":
followed_users.add(tag[1]).  Indexing an absent element raises. -/
def collectPTags : List (List String) → List String → Except String (List String)
  | [], acc => Except.ok acc
  | t :: ts, acc =>
    match t with
    | [] => Except.error "IndexError: list index out of range"
    | [p] =>
      if p == "p" then Except.error "IndexError: list index out of range"
      else collectPTags ts acc
    | p :: x :: _ =>
      if p == "p" then collectPTags ts (setAdd acc x) else collectPTags ts acc

/-- The outer event loop of fetch_existing_follows. -/
def fetchFollowsAux : List NEvent → List String → Except String (List String)
  | [], acc => Except.ok acc
  | e :: es, acc =>
    if e.kind == 3 then
      match collectPTags e.tags acc with
      | Except.ok acc2 => fetchFollowsAux es acc2
      | Except.error err => Except.error err
    else fetchFollowsAux es acc

/-- main_basics_functions.fetch_existing_follows, over the list of event
messages the relays delivered for the kind-3 subscription. -/
def fetch_existing_follows (events : List NEvent) : Except String (List String) :=
  fetchFollowsAux events []

theorem setAdd_mem (s : List String) (x y : String) :
    y ∈ setAdd s x ↔ y ∈ s ∨ y = x := by
  rw [setAdd]
  split
  · constructor
    · exact fun h => Or.inl h
    · rintro (h | rfl)
      · exact h
      · assumption
  · simp

theorem collectPTags_mem (ts : List (List String)) :
    ∀ acc acc2, collectPTags ts acc = Except.ok acc2 →
      ∀ x, x ∈ acc2 ↔ x ∈ acc ∨ ∃ rest, ("p" :: x :: rest) ∈ ts := by
  induction ts with
  | nil =>
    intro acc acc2 h x
    rw [collectPTags] at h
    obtain rfl := Except.ok.inj h
    simp
  | cons t ts ih =>
    intro acc acc2 h x
    match t with
    | [] => simp [collectPTags] at h
    | [p] =>
      rw [collectPTags] at h
      split at h
      · exact absurd h (by simp)
      · rw [ih _ _ h x]
        constructor
        · rintro (hx | ⟨rest, hrest⟩)
          · exact Or.inl hx
          · exact Or.inr ⟨rest, List.mem_cons_of_mem _ hrest⟩
        · rintro (hx | ⟨rest, hrest⟩)
          · exact Or.inl hx
          · rcases List.mem_cons.mp hrest with hEq | hmem
            · exact absurd hEq.symm (by simp)
            · exact Or.inr ⟨rest, hmem⟩
    | p :: y :: more =>
      rw [collectPTags] at h
      split at h
      · next hp =>
        rw [beq_iff_eq] at hp
        subst hp
        rw [ih _ _ h x, setAdd_mem]
        constructor
        · rintro ((hx | rfl) | ⟨rest, hrest⟩)
          · exact Or.inl hx
          · exact Or.inr ⟨more, List.mem_cons_self _ _⟩
          · exact Or.inr ⟨rest, List.mem_cons_of_mem _ hrest⟩
        · rintro (hx | ⟨rest, hrest⟩)
          · exact Or.inl (Or.inl hx)
          · rcases List.mem_cons.mp hrest with hEq | hmem
            · obtain ⟨rfl, rfl⟩ : x = y ∧ rest = more := by
                have h1 := congrArg (fun l => List.get? l 1) hEq
                have h0 := congrArg List.tail (congrArg List.tail hEq)
                simp at h1 h0
                exact ⟨h1, h0⟩
              exact Or.inl (Or.inr rfl)
            · exact Or.inr ⟨rest, hmem⟩
      · next hp =>
        rw [ih _ _ h x]
        constructor
        · rintro (hx | ⟨rest, hrest⟩)
          · exact Or.inl hx
          · exact Or.inr ⟨rest, List.mem_cons_of_mem _ hrest⟩
        · rintro (hx | ⟨rest, hrest⟩)
          · exact Or.inl hx
          · rcases List.mem_cons.mp hrest with hEq | hmem
            · exfalso
              apply hp
              have := congrArg (fun l => List.head? l) hEq
              simp at this
              simp [this]
            · exact Or.inr ⟨rest, hmem⟩

theorem fetchFollowsAux_mem (events : List NEvent) :
    ∀ acc acc2, fetchFollowsAux events acc = Except.ok acc2 →
      ∀ x, x ∈ acc2 ↔
        x ∈ acc ∨ ∃ e ∈ events, e.kind = 3 ∧ ∃ rest, ("p" :: x :: rest) ∈ e.tags := by
  induction events with
  | nil =>
    intro acc acc2 h x
    rw [fetchFollowsAux] at h
    obtain rfl := Except.ok.inj h
    simp
  | cons e es ih =>
    intro acc acc2 h x
    rw [fetchFollowsAux] at h
    split at h
    · next hk =>
      rw [beq_iff_eq] at hk
      cases hc : collectPTags e.tags acc with
      | error err => rw [hc] at h; exact absurd h (by simp)
      | ok accMid =>
        rw [hc] at h
        rw [ih _ _ h x, collectPTags_mem e.tags acc accMid hc x]
        constructor
        · rintro ((hx | ⟨rest, hrest⟩) | ⟨e2, he2, hk2, rest, hrest⟩)
          · exact Or.inl hx
          · exact Or.inr ⟨e, List.mem_cons_self _ _, hk, rest, hrest⟩
          · exact Or.inr ⟨e2, List.mem_cons_of_mem _ he2, hk2, rest, hrest⟩
        · rintro (hx | ⟨e2, he2, hk2, rest, hrest⟩)
          · exact Or.inl (Or.inl hx)
          · rcases List.mem_cons.mp he2 with rfl | hmem
            · exact Or.inl (Or.inr ⟨rest, hrest⟩)
            · exact Or.inr ⟨e2, hmem, hk2, rest, hrest⟩
    · next hk =>
      rw [beq_iff_eq] at hk
      rw [ih _ _ h x]
      constructor
      · rintro (hx | ⟨e2, he2, hk2, rest, hrest⟩)
        · exact Or.inl hx
        · exact Or.inr ⟨e2, List.mem_cons_of_mem _ he2, hk2, rest, hrest⟩
      · rintro (hx | ⟨e2, he2, hk2, rest, hrest⟩)
        · exact Or.inl hx
        · rcases List.mem_cons.mp he2 with rfl | hmem
          · exact absurd hk2 hk
          · exact Or.inr ⟨e2, hmem, hk2, rest, hrest⟩

/-- Earlier kind-3 event with follow set A, B. -/
def followEv1 : NEvent :=
  { id := "e1", pubkey := "me", content := "", kind := 3,
    tags := [["p", "A"], ["p", "B"]], created_at := 1 }

/-- Latest kind-3 event, a full replacement with follow set B, C. -/
def followEv2 : NEvent :=
  { id := "e2", pubkey := "me", content := "", kind := 3,
    tags := [["p", "B"], ["p", "C"]], created_at := 2 }

/-- C3 counterexample: when both the earlier A,B list and the latest
B,C replacement are delivered, the derived follow set is the union
A,B,C -- the removed A is still present, exactly what the claim says can
never happen. -/
theorem c3_follows_counterexample :
    fetch_existing_follows [followEv1, followEv2] = Except.ok ["A", "B", "C"] ∧
    "A" ∈ (["A", "B", "C"] : List String) := by
  refine ⟨rfl, by decide⟩

/-- C3 amended: the derived follow set of fetch_existing_follows is the
union of the p-tag entries over all delivered kind-3 events (no
latest-event selection); a pubkey is in the result exactly when some
delivered kind-3 event carries a p-tag naming it. -/
theorem c3_follows_union (events : List NEvent) (l : List String) :
    fetch_existing_follows events = Except.ok l →
    ∀ x, x ∈ l ↔ ∃ e ∈ events, e.kind = 3 ∧ ∃ rest, ("p" :: x :: rest) ∈ e.tags := by
  intro h x
  rw [fetch_existing_follows] at h
  rw [fetchFollowsAux_mem events [] l h x]
  simp

/-- Witness for the amended C3 at the two-event replacement scenario. -/
theorem c3_follows_union_witness :
    "A" ∈ (["A", "B", "C"] : List String) ↔
      ∃ e ∈ [followEv1, followEv2], e.kind = 3 ∧
        ∃ rest, ("p" :: "A" :: rest) ∈ e.tags :=
  c3_follows_union [followEv1, followEv2] ["A", "B", "C"] rfl "A"

/-! ## Follow toggle (main_basics_functions.update_follow_list)

The Python function mutates the caller's existing_follows list first
(list.remove of the first occurrence, or append), then builds and signs a
brand-new full-replacement kind-3 contact event whose tags are ["p", pk]
for every pk in the updated list, then loops over relay_urls attempting
publish_event, catching and merely printing every per-relay failure.  The
local list is therefore updated before any publish and regardless of
acknowledgement.  Signing is an external collaborator and is omitted from
the event value; the publish transport is the boolean-valued parameter
publish.  The embedding returns everything observable: the updated local
list, the constructed contact event, and the per-relay publish report. -/

/-- Python list.remove: removes the first occurrence only. -/
def removeFirst : List String → String → List String
  | [], _ => []
  | y :: ys, x => if y == x then ys else y :: removeFirst ys x

/-- The kind-3 contact event constructed by update_follow_list
(EventKind.CONTACTS = 3). -/
structure ContactEvent where
  pubkey : String
  kind : Nat
  content : String
  created_at : Int
  tags : List (List String)
deriving Repr, DecidableEq

/-- The in-place toggle performed on existing_follows. -/
def toggleFollows (existing : List String) (pk : String) : List String :=
  if pk ∈ existing then removeFirst existing pk else existing ++ [pk]

/-- main_basics_functions.update_follow_list. -/
def update_follow_list (publish : String → Bool) (existing : List String)
    (relay_urls : List String) (pubkeyHex : String) (now : Int)
    (pubkey_to_toggle : String) :
    List String × ContactEvent × List (String × Bool) :=
  let updated := toggleFollows existing pubkey_to_toggle
  let contactEvent : ContactEvent :=
    { pubkey := pubkeyHex, kind := 3, content := "", created_at := now,
      tags := updated.map (fun pk => ["p", pk]) }
  (updated, contactEvent, relay_urls.map (fun url => (url, publish url)))

theorem removeFirst_mem_of_nodup (l : List String) (p : String) (hnd : l.Nodup) :
    ∀ x, x ∈ removeFirst l p ↔ x ∈ l ∧ x ≠ p := by
  induction l with
  | nil => intro x; simp [removeFirst]
  | cons y ys ih =>
    intro x
    rw [removeFirst]
    rcases List.nodup_cons.mp hnd with ⟨hy, hys⟩
    split
    · next hEq =>
      rw [beq_iff_eq] at hEq
      subst hEq
      constructor
      · intro hx
        refine ⟨List.mem_cons_of_mem _ hx, ?_⟩
        rintro rfl
        exact hy hx
      · rintro ⟨hx, hne⟩
        rcases List.mem_cons.mp hx with rfl | h
        · exact absurd rfl hne
        · exact h
    · next hne =>
      rw [beq_iff_eq] at hne
      constructor
      · intro hx
        rcases List.mem_cons.mp hx with rfl | h
        · exact ⟨List.mem_cons_self _ _, fun hEq => hne hEq⟩
        · rcases (ih hys x).mp h with ⟨h1, h2⟩
          exact ⟨List.mem_cons_of_mem _ h1, h2⟩
      · rintro ⟨hx, hxp⟩
        rcases List.mem_cons.mp hx with rfl | h
        · exact List.mem_cons_self _ _
        · exact List.mem_cons_of_mem _ ((ih hys x).mpr ⟨h, hxp⟩)

/-- C5 counterexample: every relay publish fails (no acknowledgement at
all), yet the local follow list has already been toggled from A to
A, B -- refuting "updates the local follow list only after the publish is
acknowledged by at least one relay". -/
theorem c5_toggle_counterexample :
    (update_follow_list (fun _ => false) ["A"] ["r1"] "me" 0 "B").1 = ["A", "B"] ∧
    (update_follow_list (fun _ => false) ["A"] ["r1"] "me" 0 "B").2.2 = [("r1", false)] ∧
    (["A", "B"] : List String) ≠ ["A"] := by
  refine ⟨rfl, rfl, by decide⟩

/-- C5 amended: toggle(pubkey) does compute the one-element symmetric
difference of the current follow list and does publish one brand-new
full-replacement kind-3 event whose p-tags are exactly the updated set,
but the local follow list is updated unconditionally, before publishing
and independently of any relay acknowledgement (per-relay failures are
only logged). -/
theorem c5_toggle_symmdiff_local_first (publish publish2 : String → Bool)
    (existing relay_urls : List String) (me : String) (now : Int) (p : String) :
    ((p ∈ existing →
        (update_follow_list publish existing relay_urls me now p).1
          = removeFirst existing p) ∧
      (p ∉ existing →
        (update_follow_list publish existing relay_urls me now p).1
          = existing ++ [p])) ∧
    (existing.Nodup → ∀ x,
      x ∈ (update_follow_list publish existing relay_urls me now p).1 ↔
        (x ∈ existing ∧ x ≠ p) ∨ (x = p ∧ p ∉ existing)) ∧
    (update_follow_list publish existing relay_urls me now p).2.1.kind = 3 ∧
    (update_follow_list publish existing relay_urls me now p).2.1.tags
      = (update_follow_list publish existing relay_urls me now p).1.map
          (fun pk => ["p", pk]) ∧
    (update_follow_list publish2 existing relay_urls me now p).1
      = (update_follow_list publish existing relay_urls me now p).1 := by
  refine ⟨⟨fun hin => ?_, fun hout => ?_⟩, fun hnd x => ?_, rfl, rfl, rfl⟩
  · rw [update_follow_list]
    simp only [toggleFollows, if_pos hin]
  · rw [update_follow_list]
    simp only [toggleFollows, if_neg hout]
  · rw [update_follow_list]
    simp only [toggleFollows]
    by_cases hin : p ∈ existing
    · rw [if_pos hin, removeFirst_mem_of_nodup existing p hnd x]
      constructor
      · exact fun h => Or.inl h
      · rintro (h | ⟨rfl, hno⟩)
        · exact h
        · exact absurd hin hno
    · rw [if_neg hin]
      constructor
      · intro hx
        rcases List.mem_append.mp hx with h | h
        · refine Or.inl ⟨h, ?_⟩
          rintro rfl
          exact hin h
        · rcases List.mem_singleton.mp h with rfl
          exact Or.inr ⟨rfl, hin⟩
      · rintro (⟨h, _⟩ | ⟨rfl, _⟩)
        · exact List.mem_append.mpr (Or.inl h)
        · exact List.mem_append.mpr (Or.inr (List.mem_singleton.mpr rfl))

/-- Witness for the amended C5 at a concrete toggle that adds B to the
singleton follow list A with an always-acknowledging relay. -/
theorem c5_toggle_symmdiff_local_first_witness :
    (update_follow_list (fun _ => true) ["A"] ["r1"] "me" 5 "B").1 = ["A"] ++ ["B"] ∧
    ("A" ∈ (update_follow_list (fun _ => true) ["A"] ["r1"] "me" 5 "B").1 ↔
      ("A" ∈ (["A"] : List String) ∧ "A" ≠ "B") ∨ ("A" = "B" ∧ "B" ∉ (["A"] : List String))) :=
  ⟨(c5_toggle_symmdiff_local_first (fun _ => true) (fun _ => true) ["A"] ["r1"]
      "me" 5 "B").1.2 (by decide),
   ((c5_toggle_symmdiff_local_first (fun _ => true) (fun _ => true) ["A"] ["r1"]
      "me" 5 "B").2.1 (by decide)) "A"⟩

/-! ## Relay pool fetch with deduplication
(main_basics_functions.fetch_events_by_kind)

The Python loop drains the merged message pool of all subscribed relays
and keeps a seen_event_ids set; an event message is turned into an event
dictionary and appended to the result only when its id has not been seen
before.  convert_timestamp is the formatting collaborator convTs; the
pool drain order is the input list order. -/

/-- The event dictionary built for each first-seen message. -/
structure EventData where
  eventId : String
  pubkey : String
  content : String
  kind : Nat
  tags : List (List String)
  createdAt : String
deriving Repr, DecidableEq

/-- The dictionary constructed in step 4 of fetch_events_by_kind. -/
def mkEventData (convTs : Int → String) (m : NEvent) : EventData :=
  { eventId := m.id, pubkey := m.pubkey, content := m.content, kind := m.kind,
    tags := m.tags, createdAt := convTs m.created_at }

/-- The drain loop with its seen-id set (Python set embedded as a list,
membership being the only operation used). -/
def fetchEventsAux (convTs : Int → String) : List NEvent → List String → List EventData
  | [], _ => []
  | m :: ms, seen =>
    if m.id ∈ seen then fetchEventsAux convTs ms seen
    else mkEventData convTs m :: fetchEventsAux convTs ms (m.id :: seen)

/-- main_basics_functions.fetch_events_by_kind, starting from an empty
seen-set. -/
def fetch_events_by_kind (convTs : Int → String) (msgs : List NEvent) : List EventData :=
  fetchEventsAux convTs msgs []

theorem fetchEventsAux_not_seen (convTs : Int → String) :
    ∀ msgs seen e, e ∈ fetchEventsAux convTs msgs seen → e.eventId ∉ seen := by
  intro msgs
  induction msgs with
  | nil => intro seen e h; simp [fetchEventsAux] at h
  | cons m ms ih =>
    intro seen e h
    rw [fetchEventsAux] at h
    split at h
    · exact ih seen e h
    · rcases List.mem_cons.mp h with rfl | h2
      · next hm => exact hm
      · intro hmem
        exact ih _ e h2 (List.mem_cons_of_mem _ hmem)

theorem fetchEventsAux_nodup (convTs : Int → String) :
    ∀ msgs seen, ((fetchEventsAux convTs msgs seen).map (fun e => e.eventId)).Nodup := by
  intro msgs
  induction msgs with
  | nil => intro seen; simp [fetchEventsAux]
  | cons m ms ih =>
    intro seen
    rw [fetchEventsAux]
    split
    · exact ih seen
    · rw [List.map_cons, List.nodup_cons]
      refine ⟨?_, ih _⟩
      intro hmem
      rcases List.mem_map.mp hmem with ⟨e, he, hid⟩
      have := fetchEventsAux_not_seen convTs ms (m.id :: seen) e he
      rw [mkEventData] at hid
      exact this (hid ▸ List.mem_cons_self _ _)

theorem fetchEventsAux_coverage (convTs : Int → String) :
    ∀ msgs seen m, m ∈ msgs → m.id ∉ seen →
      ∃ e ∈ fetchEventsAux convTs msgs seen, e.eventId = m.id := by
  intro msgs
  induction msgs with
  | nil => intro seen m h; simp at h
  | cons m0 ms ih =>
    intro seen m hm hns
    rw [fetchEventsAux]
    rcases List.mem_cons.mp hm with rfl | hm2
    · rw [if_neg hns]
      exact ⟨mkEventData convTs m, List.mem_cons_self _ _, rfl⟩
    · by_cases h0 : m0.id ∈ seen
      · rw [if_pos h0]
        exact ih seen m hm2 hns
      · rw [if_neg h0]
        by_cases hEq : m.id = m0.id
        · exact ⟨mkEventData convTs m0, List.mem_cons_self _ _, hEq.symm⟩
        · have hns2 : m.id ∉ m0.id :: seen := by
            intro hc
            rcases List.mem_cons.mp hc with h | h
            · exact hEq h
            · exact hns h
          obtain ⟨e, he, hid⟩ := ih (m0.id :: seen) m hm2 hns2
          exact ⟨e, List.mem_cons_of_mem _ he, hid⟩

theorem fetchEventsAux_first_occurrence (convTs : Int → String) :
    ∀ msgs seen e, e ∈ fetchEventsAux convTs msgs seen →
      ∃ m, msgs.find? (fun x => x.id == e.eventId) = some m ∧
        e = mkEventData convTs m := by
  intro msgs
  induction msgs with
  | nil => intro seen e h; simp [fetchEventsAux] at h
  | cons m0 ms ih =>
    intro seen e h
    rw [fetchEventsAux] at h
    split at h
    · next h0 =>
      have hne : e.eventId ≠ m0.id := by
        intro hc
        exact fetchEventsAux_not_seen convTs ms seen e h (hc ▸ h0)
      obtain ⟨m, hfind, hEq⟩ := ih seen e h
      refine ⟨m, ?_, hEq⟩
      rw [List.find?_cons_of_neg, hfind]
      simp [Ne.symm hne]
    · next h0 =>
      rcases List.mem_cons.mp h with rfl | h2
      · refine ⟨m0, ?_, rfl⟩
        rw [List.find?_cons_of_pos]
        simp [mkEventData]
      · have hne : e.eventId ≠ m0.id := by
          intro hc
          exact fetchEventsAux_not_seen convTs ms (m0.id :: seen) e h2
            (hc ▸ List.mem_cons_self _ _)
        obtain ⟨m, hfind, hEq⟩ := ih _ e h2
        refine ⟨m, ?_, hEq⟩
        rw [List.find?_cons_of_neg, hfind]
        simp [Ne.symm hne]

/-- C6. fetch_events_by_kind delivers each distinct event id exactly once
and keeps the first-seen message per id: the returned ids are
duplicate-free, every delivered message's id is represented, and every
returned entry is built from the first message in delivery order bearing
its id. -/
theorem c6_fetch_events_dedup (convTs : Int → String) (msgs : List NEvent) :
    ((fetch_events_by_kind convTs msgs).map (fun e => e.eventId)).Nodup ∧
    (∀ m ∈ msgs, ∃ e ∈ fetch_events_by_kind convTs msgs, e.eventId = m.id) ∧
    (∀ e ∈ fetch_events_by_kind convTs msgs,
      ∃ m, msgs.find? (fun x => x.id == e.eventId) = some m ∧
        e = mkEventData convTs m) := by
  refine ⟨fetchEventsAux_nodup convTs msgs [], fun m hm => ?_, fun e he => ?_⟩
  · exact fetchEventsAux_coverage convTs msgs [] m hm (by simp)
  · exact fetchEventsAux_first_occurrence convTs msgs [] e he

/-- The same event E delivered by relay R1. -/
def dupEvA : NEvent :=
  { id := "E", pubkey := "pkA", content := "hello", kind := 1, tags := [], created_at := 3 }

/-- The same event E delivered again by relay R2 (identical id). -/
def dupEvB : NEvent :=
  { id := "E", pubkey := "pkA", content := "hello", kind := 1, tags := [], created_at := 3 }

/-- Witness for C6: two relays each deliver event E once; the consumer
receives exactly one entry for id E, the first-seen one. -/
theorem c6_fetch_events_dedup_witness :
    (∃ e ∈ fetch_events_by_kind (fun _ => "t") [dupEvA, dupEvB],
      e.eventId = dupEvA.id) ∧
    (∃ m, [dupEvA, dupEvB].find?
        (fun x => x.id == (mkEventData (fun _ => "t") dupEvA).eventId) = some m ∧
      mkEventData (fun _ => "t") dupEvA = mkEventData (fun _ => "t") m) :=
  ⟨(c6_fetch_events_dedup (fun _ => "t") [dupEvA, dupEvB]).2.1 dupEvA (by decide),
   (c6_fetch_events_dedup (fun _ => "t") [dupEvA, dupEvB]).2.2
     (mkEventData (fun _ => "t") dupEvA) (by rw [fetch_events_by_kind]; decide)⟩

/-! ## Relay information endpoint (advanced_nips.get_relay_info)

The HTTP GET is the collaborator httpGet, whose Except.error constructor
covers every requests.RequestException (connection errors, timeouts and,
in the requests release line this code runs on, JSON decoding failures,
which subclass RequestException).  The function is total: every outcome
is a returned value, never a propagated exception. -/

/-- The response object as read by the source: status_code and the parsed
NIP-11 metadata (opaque). -/
structure HttpResponse where
  status : Nat
  json : String
deriving Repr, DecidableEq

/-- The two shapes get_relay_info can return: the parsed metadata dict,
or a failure-description string. -/
inductive RelayInfoResult where
  | info (json : String)
  | failure (msg : String)
deriving Repr, DecidableEq

/-- advanced_nips.get_relay_info. -/
def get_relay_info (httpGet : String → Except String HttpResponse)
    (relay_url : String) : RelayInfoResult :=
  match httpGet relay_url with
  | Except.ok r =>
    if r.status == 200 then RelayInfoResult.info r.json
    else RelayInfoResult.failure
      ("Failed to retrieve relay info. Status code: " ++ toString r.status)
  | Except.error e => RelayInfoResult.failure ("An error occurred: " ++ e)

/-- C8. get_relay_info never propagates a transport error: it is a total
function whose value is the parsed metadata exactly on status 200, a
failure value naming the status code on any other status, and a failure
value naming the error on any network error. -/
theorem c8_relay_info_boundary (httpGet : String → Except String HttpResponse)
    (url : String) :
    (∀ r, httpGet url = Except.ok r → r.status = 200 →
      get_relay_info httpGet url = RelayInfoResult.info r.json) ∧
    (∀ r, httpGet url = Except.ok r → r.status ≠ 200 →
      get_relay_info httpGet url = RelayInfoResult.failure
        ("Failed to retrieve relay info. Status code: " ++ toString r.status)) ∧
    (∀ e, httpGet url = Except.error e →
      get_relay_info httpGet url = RelayInfoResult.failure
        ("An error occurred: " ++ e)) := by
  refine ⟨fun r hr hs => ?_, fun r hr hs => ?_, fun e he => ?_⟩
  · simp [get_relay_info, hr, hs]
  · simp [get_relay_info, hr, hs]
  · simp [get_relay_info, he]

/-- Witness for C8: all three outcome shapes at concrete responses. -/
theorem c8_relay_info_boundary_witness :
    get_relay_info (fun _ => Except.ok ⟨200, "meta"⟩) "wss://r" = RelayInfoResult.info "meta" ∧
    get_relay_info (fun _ => Except.ok ⟨404, "x"⟩) "wss://r"
      = RelayInfoResult.failure "Failed to retrieve relay info. Status code: 404" ∧
    get_relay_info (fun _ => Except.error "timeout") "wss://r"
      = RelayInfoResult.failure "An error occurred: timeout" :=
  ⟨(c8_relay_info_boundary (fun _ => Except.ok ⟨200, "meta"⟩) "wss://r").1 ⟨200, "meta"⟩ rfl rfl,
   (c8_relay_info_boundary (fun _ => Except.ok ⟨404, "x"⟩) "wss://r").2.1 ⟨404, "x"⟩ rfl
     (by decide),
   (c8_relay_info_boundary (fun _ => Except.error "timeout") "wss://r").2.2 "timeout" rfl⟩

/-! ## Chat assembly (main_basics_functions.organize_chat_messages)

Sent and received message dictionaries are tagged with their type, pooled
(sent first, as in the source concatenation), grouped into rooms keyed by
the counterparty pubkey -- the first p-tag entry for a sent message, the
sender pubkey for a received one -- and each room is sorted by 'Created
at' ascending with Python's stable sort.  The source carries 'Created at'
as the strftime-formatted string and sorts by strptime of it; since
strptime inverts strftime and preserves the order of Unix times, the
embedding carries the timestamp itself.  The print loop then converts
each room key with the injected convert_hex_to_npub_fn; any exception
anywhere lands in the except branch which returns the empty dict,
embedded as Except.error. -/

/-- The type tag added to each pooled message. -/
inductive MsgDir where
  | sent
  | received
deriving Repr, DecidableEq

/-- The fields of a message dictionary that organize_chat_messages
reads. -/
structure ChatMsg where
  pubkey : String
  content : String
  tags : List (List String)
  createdAt : Int
deriving Repr, DecidableEq

/-- A pooled message with its type tag. -/
structure TaggedMsg where
  typ : MsgDir
  msg : ChatMsg
deriving Repr, DecidableEq

/-- Python next(tag[1] for tag in Tags if tag[0] == 'p'): the first
p-tag's second entry; StopIteration when no tag passes the filter,
IndexError when a tag is too short, both landing in the caller's except
branch. -/
def findPTag : List (List String) → Except String String
  | [] => Except.error "StopIteration"
  | t :: ts =>
    match t with
    | [] => Except.error "IndexError: list index out of range"
    | [p] =>
      if p == "p" then Except.error "IndexError: list index out of range"
      else findPTag ts
    | p :: x :: _ => if p == "p" then Except.ok x else findPTag ts

/-- get_other_pubkey from the source: p-tag recipient for sent messages,
sender pubkey for received ones. -/
def getOtherPubkey (m : TaggedMsg) : Except String String :=
  match m.typ with
  | MsgDir.sent => findPTag m.msg.tags
  | MsgDir.received => Except.ok m.msg.pubkey

/-- Append into a defaultdict(list) embedded as an insertion-ordered
association list. -/
def groupInsert (rooms : List (String × List TaggedMsg)) (key : String)
    (m : TaggedMsg) : List (String × List TaggedMsg) :=
  match rooms with
  | [] => [(key, [m])]
  | (k, ms) :: rest =>
    if k == key then (k, ms ++ [m]) :: rest
    else (k, ms) :: groupInsert rest key m

/-- The grouping loop over the pooled messages. -/
def buildRooms : List TaggedMsg → List (String × List TaggedMsg) →
    Except String (List (String × List TaggedMsg))
  | [], rooms => Except.ok rooms
  | m :: rest, rooms =>
    match getOtherPubkey m with
    | Except.ok k => buildRooms rest (groupInsert rooms k m)
    | Except.error e => Except.error e

/-- Stable insertion of one message into a timestamp-sorted room list:
the new message goes after every already-placed message whose timestamp
is not greater, which is exactly the stability contract of Python's
sort. -/
def insertByTime (m : TaggedMsg) : List TaggedMsg → List TaggedMsg
  | [] => [m]
  | x :: xs =>
    if m.msg.createdAt < x.msg.createdAt then m :: x :: xs
    else x :: insertByTime m xs

/-- Python rooms[room].sort(key=timestamp): stable ascending sort. -/
def sortByTime (l : List TaggedMsg) : List TaggedMsg :=
  l.foldl (fun acc m => insertByTime m acc) []

/-- main_basics_functions.organize_chat_messages.  npubFn is the injected
convert_hex_to_npub_fn used by the display loop; its failure on any room
key aborts the whole call into the except branch. -/
def organize_chat_messages (npubFn : String → Except String String)
    (sent received : List ChatMsg) :
    Except String (List (String × List TaggedMsg)) :=
  let allMsgs := sent.map (fun m => TaggedMsg.mk MsgDir.sent m) ++
    received.map (fun m => TaggedMsg.mk MsgDir.received m)
  match buildRooms allMsgs [] with
  | Except.error e => Except.error e
  | Except.ok rooms =>
    let sorted := rooms.map (fun kv => (kv.1, sortByTime kv.2))
    if sorted.all (fun kv =>
        match npubFn kv.1 with
        | Except.ok _ => true
        | Except.error _ => false) then
      Except.ok sorted
    else
      Except.error "error organizing chat messages"

/-- C7. One sent message at t1 and one received message at t2 with the
same counterparty c (the p-tag recipient of the sent one, the sender of
the received one) are assembled into the single room keyed c, in
ascending timestamp order whichever of the two carries the earlier
time. -/
theorem c7_chat_room_order (npubFn : String → Except String String)
    (c npub : String) (m1 m2 : ChatMsg)
    (hc1 : findPTag m1.tags = Except.ok c) (hc2 : m2.pubkey = c)
    (hnp : npubFn c = Except.ok npub) :
    (m1.createdAt < m2.createdAt →
      organize_chat_messages npubFn [m1] [m2] =
        Except.ok [(c, [TaggedMsg.mk MsgDir.sent m1, TaggedMsg.mk MsgDir.received m2])]) ∧
    (m2.createdAt < m1.createdAt →
      organize_chat_messages npubFn [m1] [m2] =
        Except.ok [(c, [TaggedMsg.mk MsgDir.received m2, TaggedMsg.mk MsgDir.sent m1])]) := by
  have hrooms : buildRooms
      [TaggedMsg.mk MsgDir.sent m1, TaggedMsg.mk MsgDir.received m2] [] =
      Except.ok [(c, [TaggedMsg.mk MsgDir.sent m1, TaggedMsg.mk MsgDir.received m2])] := by
    rw [buildRooms]
    simp only [getOtherPubkey, hc1]
    rw [buildRooms]
    simp only [getOtherPubkey, hc2]
    rw [buildRooms]
    simp [groupInsert]
  constructor
  · intro hlt
    rw [organize_chat_messages]
    simp only [List.map_cons, List.map_nil, List.nil_append, List.cons_append, hrooms]
    have hsort : sortByTime [TaggedMsg.mk MsgDir.sent m1, TaggedMsg.mk MsgDir.received m2] =
        [TaggedMsg.mk MsgDir.sent m1, TaggedMsg.mk MsgDir.received m2] := by
      rw [sortByTime]
      simp [insertByTime, Int.not_lt.mpr (Int.le_of_lt hlt)]
    simp [hsort, hnp]
  · intro hlt
    rw [organize_chat_messages]
    simp only [List.map_cons, List.map_nil, List.nil_append, List.cons_append, hrooms]
    have hsort : sortByTime [TaggedMsg.mk MsgDir.sent m1, TaggedMsg.mk MsgDir.received m2] =
        [TaggedMsg.mk MsgDir.received m2, TaggedMsg.mk MsgDir.sent m1] := by
      rw [sortByTime]
      simp [insertByTime, hlt]
    simp [hsort, hnp]

/-- A sent direct message to counterparty C at time 1. -/
def sentMsgEx : ChatMsg :=
  { pubkey := "me", content := "enc1", tags := [["p", "C"]], createdAt := 1 }

/-- A received direct message from counterparty C at time 2. -/
def recvMsgEx : ChatMsg :=
  { pubkey := "C", content := "enc2", tags := [["p", "me"]], createdAt := 2 }

/-- Witness for C7: the concrete two-message room comes out in ascending
order t1 then t2. -/
theorem c7_chat_room_order_witness :
    organize_chat_messages (fun s => Except.ok s) [sentMsgEx] [recvMsgEx] =
      Except.ok [("C", [TaggedMsg.mk MsgDir.sent sentMsgEx,
        TaggedMsg.mk MsgDir.received recvMsgEx])] :=
  (c7_chat_room_order (fun s => Except.ok s) "C" "C" sentMsgEx recvMsgEx
    (by rfl) (by rfl) (by rfl)).1 (by decide)

/-! ## bech32 npub encoding
(main_basics_functions.convert_hex_to_npub / decode_npub)

The two wrappers delegate to the reference bech32 library (the segwit
reference implementation published as the bech32 package).  The claim is
decided by that arithmetic, so the library is embedded in full:
convertbits, the BCH checksum polymod, bech32_encode and bech32_decode,
together with binascii hexlify/unhexlify.  Strings are processed as their
character lists. -/

/-- The bech32 data-character alphabet. -/
def CHARSET : List Char := "qpzry9x8gf2tvdw0s3jn54khce6mua7l".data

/-- One step of bech32_polymod: shift the 30-bit LFSR state five bits,
xor in the next value, and reduce with the five generator constants
selected by the previous top bits. -/
def polymodStep (chk v : Nat) : Nat :=
  let top := chk >>> 25
  ((chk &&& 0x1ffffff) <<< 5) ^^^ v
    ^^^ (if (top >>> 0) &&& 1 = 1 then 0x3b6a57b2 else 0)
    ^^^ (if (top >>> 1) &&& 1 = 1 then 0x26508e6d else 0)
    ^^^ (if (top >>> 2) &&& 1 = 1 then 0x1ea119fa else 0)
    ^^^ (if (top >>> 3) &&& 1 = 1 then 0x3d4233dd else 0)
    ^^^ (if (top >>> 4) &&& 1 = 1 then 0x2a1462b3 else 0)

/-- bech32_polymod over a value list, starting from state 1. -/
def bech32_polymod (values : List Nat) : Nat :=
  values.foldl polymodStep 1

/-- bech32_hrp_expand: high bits of the hrp characters, a zero separator,
then their low five bits. -/
def bech32_hrp_expand (hrp : List Char) : List Nat :=
  hrp.map (fun c => c.toNat >>> 5) ++ [0] ++ hrp.map (fun c => c.toNat &&& 31)

/-- bech32_verify_checksum. -/
def bech32_verify_checksum (hrp : List Char) (data : List Nat) : Bool :=
  bech32_polymod (bech32_hrp_expand hrp ++ data) == 1

/-- bech32_create_checksum: six five-bit fields of the xor-adjusted
polymod over the expanded hrp, the data and six zero placeholders. -/
def bech32_create_checksum (hrp : List Char) (data : List Nat) : List Nat :=
  let values := bech32_hrp_expand hrp ++ data
  let pm := bech32_polymod (values ++ [0, 0, 0, 0, 0, 0]) ^^^ 1
  [(pm >>> 25) &&& 31, (pm >>> 20) &&& 31, (pm >>> 15) &&& 31,
   (pm >>> 10) &&& 31, (pm >>> 5) &&& 31, pm &&& 31]

/-- CHARSET lookup by five-bit value. -/
def charsetGet (d : Nat) : Char := CHARSET.getD d '?'

/-- bech32_encode: hrp, the separator '1', then the charset image of data
plus checksum. -/
def bech32_encode (hrp : List Char) (data : List Nat) : List Char :=
  hrp ++ ['1'] ++ (data ++ bech32_create_checksum hrp data).map charsetGet

/-- Python str.lower over the character list. -/
def pyLower (l : List Char) : List Char := l.map Char.toLower

/-- Python str.upper over the character list. -/
def pyUpper (l : List Char) : List Char := l.map Char.toUpper

/-- Python str.rfind for a single character: index of the last
occurrence. -/
def rfindChar : List Char → Char → Option Nat
  | [], _ => none
  | a :: as, c =>
    match rfindChar as c with
    | some i => some (i + 1)
    | none => if a == c then some 0 else none

/-- Position of a character in CHARSET (CHARSET.find, used only after
membership has been checked). -/
def charsetIndexAux : List Char → Char → Nat
  | [], _ => 0
  | a :: as, c => if a == c then 0 else charsetIndexAux as c + 1

/-- CHARSET.find on a character known to be present. -/
def charsetIndex (c : Char) : Nat := charsetIndexAux CHARSET c

/-- The part of bech32_decode operating on the lowercased string:
separator search from the right (Python rfind, -1 mapping to the pos < 1
rejection), length bounds, charset check, checksum verification, and the
(hrp, data-without-checksum) result.  Python's (None, None) returns are
the none branches. -/
def bech32_decode_lowered (bech : List Char) : Option (List Char × List Nat) :=
  match rfindChar bech '1' with
  | none => none
  | some pos =>
    if pos < 1 ∨ pos + 7 > bech.length ∨ bech.length > 90 then none
    else if (bech.drop (pos + 1)).all (fun c => CHARSET.contains c) then
      if bech32_verify_checksum (bech.take pos) ((bech.drop (pos + 1)).map charsetIndex) then
        some (bech.take pos,
          ((bech.drop (pos + 1)).map charsetIndex).take
            (((bech.drop (pos + 1)).map charsetIndex).length - 6))
      else none
    else none

/-- bech32_decode: the character-range and mixed-case screening, then the
decoding of the lowercased string. -/
def bech32_decode (bechIn : List Char) : Option (List Char × List Nat) :=
  if bechIn.any (fun c => c.toNat < 33 || 126 < c.toNat) then none
  else if pyLower bechIn ≠ bechIn ∧ pyUpper bechIn ≠ bechIn then none
  else bech32_decode_lowered (pyLower bechIn)

/-- The inner while-loop of convertbits: emit tobits-sized chunks from
the accumulator while at least tobits bits are pending.  The first
argument is structural fuel; fuel = bits suffices because every
iteration removes tobits ≥ 1 bits. -/
def emitLoopF (tobits maxv acc : Nat) : Nat → Nat → List Nat × Nat
  | 0, bits => ([], bits)
  | fuel + 1, bits =>
    if 0 < tobits ∧ tobits ≤ bits then
      let bits2 := bits - tobits
      let res := emitLoopF tobits maxv acc fuel bits2
      (((acc >>> bits2) &&& maxv) :: res.1, res.2)
    else ([], bits)

/-- The emit loop at its sufficient fuel. -/
def emitLoop (tobits maxv acc bits : Nat) : List Nat × Nat :=
  emitLoopF tobits maxv acc bits bits

/-- The value loop of convertbits: reject oversized values, shift each
value into the masked accumulator, and emit full chunks.  Returns the
emitted chunks and the final accumulator state. -/
def cbLoop (frombits tobits maxv maxAcc : Nat) :
    List Nat → Nat → Nat → Option (List Nat × Nat × Nat)
  | [], acc, bits => some ([], acc, bits)
  | v :: vs, acc, bits =>
    if v >>> frombits ≠ 0 then none
    else
      let acc2 := ((acc <<< frombits) ||| v) &&& maxAcc
      let bits2 := bits + frombits
      let em := emitLoop tobits maxv acc2 bits2
      match cbLoop frombits tobits maxv maxAcc vs acc2 em.2 with
      | none => none
      | some (rest, accF, bitsF) => some (em.1 ++ rest, accF, bitsF)

/-- The reference convertbits.  Negative inputs cannot occur over Nat;
the v >> frombits test is the remaining rejection.  With pad, leftover
bits are flushed left-aligned; without pad, leftover state must be a
strict sub-chunk of zero padding. -/
def convertbits (data : List Nat) (frombits tobits : Nat) (pad : Bool) :
    Option (List Nat) :=
  let maxv := (1 <<< tobits) - 1
  let maxAcc := (1 <<< (frombits + tobits - 1)) - 1
  match cbLoop frombits tobits maxv maxAcc data 0 0 with
  | none => none
  | some (ret, acc, bits) =>
    if pad then
      if bits ≠ 0 then some (ret ++ [(acc <<< (tobits - bits)) &&& maxv])
      else some ret
    else
      if frombits ≤ bits ∨ ((acc <<< (tobits - bits)) &&& maxv) ≠ 0 then none
      else some ret

/-- Lowercase hex character of a value below 16 (binascii.hexlify is
lowercase). -/
def hexDigitChar (n : Nat) : Char :=
  if n < 10 then Char.ofNat (48 + n) else Char.ofNat (87 + n)

/-- binascii.hexlify over a byte list. -/
def hexlify : List Nat → List Char
  | [] => []
  | b :: bs => hexDigitChar (b / 16) :: hexDigitChar (b % 16) :: hexlify bs

/-- binascii.unhexlify: pairs of hex digits (either case); odd length or
a non-hex digit raises binascii.Error, embedded as none. -/
def unhexlify : List Char → Option (List Nat)
  | [] => some []
  | [_] => none
  | c1 :: c2 :: rest =>
    match hexDigitValue c1, hexDigitValue c2 with
    | some v1, some v2 =>
      match unhexlify rest with
      | some bs => some ((16 * v1 + v2) :: bs)
      | none => none
    | _, _ => none

/-- main_basics_functions.convert_hex_to_npub.  A bad hex string raises
through the binascii.Error handler; a None from convertbits would make
bech32_encode raise a TypeError caught by the generic handler. -/
def convert_hex_to_npub (hexPubkey : String) : Except String String :=
  match unhexlify hexPubkey.data with
  | none => Except.error "Invalid hex public key"
  | some pubkeyBytes =>
    match convertbits pubkeyBytes 8 5 true with
    | none => Except.error "Error converting to npub"
    | some fiveBitR => Except.ok (String.mk (bech32_encode "npub".data fiveBitR))

/-- main_basics_functions.decode_npub.  A failed bech32_decode or a wrong
hrp raises the "Invalid npub format" ValueError; a None from convertbits
would make bytearray raise a TypeError caught by the generic handler. -/
def decode_npub (npub : String) : Except String String :=
  match bech32_decode npub.data with
  | none => Except.error "Invalid npub format"
  | some (hrp, data) =>
    if hrp ≠ "npub".data then Except.error "Invalid npub format"
    else
      match convertbits data 5 8 false with
      | none => Except.error "Unexpected error decoding npub"
      | some decodedBytes => Except.ok (String.mk (hexlify decodedBytes))

/-! ### Bit-stream semantics for convertbits

convertbits regroups a big-endian bit stream between group widths; the
proofs below relate the accumulator loop to the explicit bit stream. -/

/-- The w low bits of v, most significant first. -/
def bitsOf : Nat → Nat → List Bool
  | 0, _ => []
  | w + 1, v => v.testBit w :: bitsOf w v

/-- The concatenated big-endian bit stream of a list of w-bit groups. -/
def bitstream (w : Nat) (l : List Nat) : List Bool := (l.map (bitsOf w)).flatten

theorem bitsOf_length (w v : Nat) : (bitsOf w v).length = w := by
  induction w generalizing v with
  | zero => rfl
  | succ w ih => simp [bitsOf, ih]

theorem bitsOf_congr (w : Nat) (v u : Nat)
    (h : ∀ i, i < w → v.testBit i = u.testBit i) : bitsOf w v = bitsOf w u := by
  induction w with
  | zero => rfl
  | succ w ih =>
    rw [bitsOf, bitsOf, h w (Nat.lt_succ_self w),
      ih (fun i hi => h i (Nat.lt_succ_of_lt hi))]

theorem bitsOf_split (a b v : Nat) :
    bitsOf (a + b) v = bitsOf a (v >>> b) ++ bitsOf b v := by
  induction a with
  | zero => rw [Nat.zero_add]; rfl
  | succ a ih =>
    rw [Nat.succ_add, bitsOf, bitsOf, ih, Nat.testBit_shiftRight, Nat.add_comm b a]
    rfl

theorem bitsOf_zero (w : Nat) : bitsOf w 0 = List.replicate w false := by
  induction w with
  | zero => rfl
  | succ w ih => simp [bitsOf, ih, List.replicate_succ]

/-- Numeric value of a big-endian bit list. -/
def ofBits (l : List Bool) : Nat := l.foldl (fun a b => 2 * a + cond b 1 0) 0

theorem ofBits_foldl (l : List Bool) :
    ∀ a, l.foldl (fun a b => 2 * a + cond b 1 0) a = a * 2 ^ l.length + ofBits l := by
  induction l with
  | nil => intro a; simp [ofBits]
  | cons b l ih =>
    intro a
    have hcons : ofBits (b :: l) = (cond b 1 0) * 2 ^ l.length + ofBits l := by
      show List.foldl _ (2 * 0 + cond b 1 0) l = _
      rw [ih]
      simp
    rw [List.foldl_cons, ih, hcons, List.length_cons, Nat.pow_succ]
    ring

theorem ofBits_cons (b : Bool) (l : List Bool) :
    ofBits (b :: l) = (cond b 1 0) * 2 ^ l.length + ofBits l := by
  show List.foldl _ (2 * 0 + cond b 1 0) l = _
  rw [ofBits_foldl]
  simp

theorem ofBits_bitsOf (w : Nat) : ∀ v, v < 2 ^ w → ofBits (bitsOf w v) = v := by
  induction w with
  | zero =>
    intro v hv
    interval_cases v
    rfl
  | succ w ih =>
    intro v hv
    have hlow : bitsOf w v = bitsOf w (v % 2 ^ w) := by
      apply bitsOf_congr
      intro i hi
      simp [Nat.testBit_mod_two_pow, hi]
    have hmod : ofBits (bitsOf w v) = v % 2 ^ w := by
      rw [hlow]
      exact ih _ (Nat.mod_lt _ (Nat.two_pow_pos w))
    have hdm := Nat.div_add_mod v (2 ^ w)
    have hdiv2 : v / 2 ^ w < 2 := by
      apply Nat.div_lt_of_lt_mul
      exact hv.trans_eq (by rw [Nat.pow_succ, Nat.mul_comm])
    rw [bitsOf, ofBits_cons, bitsOf_length, hmod]
    have hcases : v / 2 ^ w = 0 ∨ v / 2 ^ w = 1 :=
      Nat.le_one_iff_eq_zero_or_eq_one.mp (Nat.lt_succ_iff.mp hdiv2)
    cases hb : v.testBit w with
    | false =>
      rw [Nat.testBit_to_div_mod, decide_eq_false_iff_not] at hb
      have hd0 : v / 2 ^ w = 0 := by
        rcases hcases with h | h
        · exact h
        · exact absurd (by rw [h]) hb
      rw [hd0] at hdm
      simp only [cond_false, Nat.zero_mul, Nat.zero_add]
      omega
    | true =>
      rw [Nat.testBit_to_div_mod, decide_eq_true_eq] at hb
      have hd1 : v / 2 ^ w = 1 := by
        rcases hcases with h | h
        · rw [h] at hb; simp at hb
        · exact h
      rw [hd1] at hdm
      simp only [cond_true, Nat.one_mul]
      omega

theorem bitstream_nil (w : Nat) : bitstream w [] = [] := rfl

theorem bitstream_cons (w v : Nat) (l : List Nat) :
    bitstream w (v :: l) = bitsOf w v ++ bitstream w l := by
  simp [bitstream]

theorem bitstream_append (w : Nat) (l1 l2 : List Nat) :
    bitstream w (l1 ++ l2) = bitstream w l1 ++ bitstream w l2 := by
  simp [bitstream]

theorem bitstream_length (w : Nat) (l : List Nat) :
    (bitstream w l).length = w * l.length := by
  induction l with
  | nil => simp [bitstream]
  | cons v l ih =>
    rw [bitstream_cons, List.length_append, bitsOf_length, ih, List.length_cons]
    ring

theorem bitstream_inj (w : Nat) :
    ∀ l1 l2 : List Nat, (∀ x ∈ l1, x < 2 ^ w) → (∀ x ∈ l2, x < 2 ^ w) →
      l1.length = l2.length → bitstream w l1 = bitstream w l2 → l1 = l2 := by
  intro l1
  induction l1 with
  | nil =>
    intro l2 _ _ hlen _
    exact (List.length_eq_zero.mp hlen.symm).symm
  | cons v l ih =>
    intro l2 h1 h2 hlen hs
    cases l2 with
    | nil => simp at hlen
    | cons v2 l2 =>
      rw [bitstream_cons, bitstream_cons] at hs
      have hparts := List.append_inj hs (by rw [bitsOf_length, bitsOf_length])
      have hv : v = v2 := by
        have := congrArg ofBits hparts.1
        rwa [ofBits_bitsOf w v (h1 v (List.mem_cons_self _ _)),
          ofBits_bitsOf w v2 (h2 v2 (List.mem_cons_self _ _))] at this
      have hrest := ih l2 (fun x hx => h1 x (List.mem_cons_of_mem _ hx))
        (fun x hx => h2 x (List.mem_cons_of_mem _ hx))
        (by simpa using hlen) hparts.2
      rw [hv, hrest]

theorem bitsOf_and_two_pow_sub_one (t acc : Nat) :
    bitsOf t (acc &&& 2 ^ t - 1) = bitsOf t acc := by
  apply bitsOf_congr
  intro i hi
  rw [Nat.and_pow_two_sub_one_eq_mod]
  simp [Nat.testBit_mod_two_pow, hi]

theorem emitLoopF_spec (tobits maxv acc : Nat) (ht : 0 < tobits)
    (hmaxv : maxv = 2 ^ tobits - 1) :
    ∀ fuel bits, bits ≤ fuel →
      (emitLoopF tobits maxv acc fuel bits).2 = bits % tobits ∧
      (emitLoopF tobits maxv acc fuel bits).1.length = bits / tobits ∧
      (∀ x ∈ (emitLoopF tobits maxv acc fuel bits).1, x < 2 ^ tobits) ∧
      bitstream tobits (emitLoopF tobits maxv acc fuel bits).1 ++
        bitsOf (bits % tobits) acc = bitsOf bits acc := by
  intro fuel
  induction fuel with
  | zero =>
    intro bits hb
    have h0 : bits = 0 := Nat.le_zero.mp hb
    subst h0
    simp [emitLoopF, Nat.zero_mod, bitsOf, bitstream]
  | succ fuel ih =>
    intro bits hb
    rw [emitLoopF]
    by_cases hc : 0 < tobits ∧ tobits ≤ bits
    · rw [if_pos hc]
      have hfuel2 : bits - tobits ≤ fuel := by omega
      obtain ⟨ih2, ihlen, ihbound, ihstream⟩ := ih (bits - tobits) hfuel2
      have hmodEq : (bits - tobits) % tobits = bits % tobits := by
        conv_rhs => rw [← Nat.sub_add_cancel hc.2]
        rw [Nat.add_mod_right]
      have hdivEq : (bits - tobits) / tobits + 1 = bits / tobits := by
        conv_rhs => rw [← Nat.sub_add_cancel hc.2]
        rw [Nat.add_div_right _ ht]
      refine ⟨by simpa [hmodEq] using ih2, ?_, ?_, ?_⟩
      · rw [List.length_cons, ihlen, hdivEq]
      · intro x hx
        rcases List.mem_cons.mp hx with rfl | hx2
        · calc (acc >>> (bits - tobits)) &&& maxv ≤ maxv := Nat.and_le_right
            _ < 2 ^ tobits := by rw [hmaxv]; exact Nat.sub_lt (Nat.two_pow_pos tobits) Nat.one_pos
        · exact ihbound x hx2
      · rw [bitstream_cons, List.append_assoc, ← hmodEq, ihstream]
        have hchunk : bitsOf tobits ((acc >>> (bits - tobits)) &&& maxv)
            = bitsOf tobits (acc >>> (bits - tobits)) := by
          rw [hmaxv]
          exact bitsOf_and_two_pow_sub_one tobits (acc >>> (bits - tobits))
        rw [hchunk, ← bitsOf_split]
        congr 1
        omega
    · rw [if_neg hc]
      have hlt : bits < tobits := by
        rcases Decidable.not_and_iff_or_not.mp hc with h | h
        · exact absurd ht h
        · exact Nat.lt_of_not_le h
      rw [Nat.mod_eq_of_lt hlt, Nat.div_eq_of_lt hlt]
      exact ⟨rfl, rfl, by simp, by simp [bitstream_nil]⟩

theorem emitLoop_spec (tobits maxv acc bits : Nat) (ht : 0 < tobits)
    (hmaxv : maxv = 2 ^ tobits - 1) :
    (emitLoop tobits maxv acc bits).2 = bits % tobits ∧
    (emitLoop tobits maxv acc bits).1.length = bits / tobits ∧
    (∀ x ∈ (emitLoop tobits maxv acc bits).1, x < 2 ^ tobits) ∧
    bitstream tobits (emitLoop tobits maxv acc bits).1 ++
      bitsOf (bits % tobits) acc = bitsOf bits acc :=
  emitLoopF_spec tobits maxv acc ht hmaxv bits bits (Nat.le_refl bits)

theorem testBit_shiftLeft_or_high (acc v f i : Nat) (hv : v < 2 ^ f) :
    ((acc <<< f) ||| v).testBit (f + i) = acc.testBit i := by
  rw [Nat.testBit_or, Nat.testBit_shiftLeft]
  have hvf : v.testBit (f + i) = false :=
    Nat.testBit_lt_two_pow (hv.trans_le (Nat.pow_le_pow_right (by norm_num) (Nat.le_add_right f i)))
  simp [hvf, Nat.le_add_right, Nat.add_sub_cancel_left]

theorem testBit_shiftLeft_or_low (acc v f i : Nat) (hi : i < f) :
    ((acc <<< f) ||| v).testBit i = v.testBit i := by
  rw [Nat.testBit_or, Nat.testBit_shiftLeft]
  simp [Nat.not_le.mpr hi]

theorem cbLoop_spec (f t maxv maxAcc : Nat) (hf : 0 < f) (ht : 0 < t)
    (hmaxv : maxv = 2 ^ t - 1) (hmaxAcc : maxAcc = 2 ^ (f + t - 1) - 1) :
    ∀ vs acc bits, bits < t → (∀ v ∈ vs, v < 2 ^ f) →
      ∃ ret accF bitsF,
        cbLoop f t maxv maxAcc vs acc bits = some (ret, accF, bitsF) ∧
        bitsF < t ∧
        bitstream t ret ++ bitsOf bitsF accF = bitsOf bits acc ++ bitstream f vs ∧
        (∀ x ∈ ret, x < 2 ^ t) ∧
        t * ret.length + bitsF = bits + f * vs.length := by
  intro vs
  induction vs with
  | nil =>
    intro acc bits hbits _
    refine ⟨[], acc, bits, rfl, hbits, ?_, by simp, by simp⟩
    rw [bitstream_nil, List.nil_append, bitstream_nil, List.append_nil]
  | cons v vs ih =>
    intro acc bits hbits hvals
    have hv : v < 2 ^ f := hvals v (List.mem_cons_self _ _)
    have hshift : v >>> f = 0 := by
      rw [Nat.shiftRight_eq_div_pow]
      exact Nat.div_eq_of_lt hv
    have hb2 : bits + f ≤ f + t - 1 := by omega
    have hkey : bitsOf (bits + f) (((acc <<< f) ||| v) &&& maxAcc)
        = bitsOf bits acc ++ bitsOf f v := by
      have h1 : bitsOf (bits + f) (((acc <<< f) ||| v) &&& maxAcc)
          = bitsOf (bits + f) ((acc <<< f) ||| v) := by
        apply bitsOf_congr
        intro i hi
        rw [hmaxAcc, Nat.and_pow_two_sub_one_eq_mod]
        simp [Nat.testBit_mod_two_pow, Nat.lt_of_lt_of_le hi hb2]
      rw [h1, bitsOf_split]
      congr 1
      · apply bitsOf_congr
        intro i hi
        rw [Nat.testBit_shiftRight, testBit_shiftLeft_or_high acc v f i hv]
      · apply bitsOf_congr
        intro i hi
        exact testBit_shiftLeft_or_low acc v f i hi
    obtain ⟨hem2, hemlen, hembound, hemstream⟩ :=
      emitLoop_spec t maxv (((acc <<< f) ||| v) &&& maxAcc) (bits + f) ht hmaxv
    obtain ⟨rest, accF, bitsF, hrec, hbF, hstream, hbound, hlen⟩ :=
      ih (((acc <<< f) ||| v) &&& maxAcc)
        ((emitLoop t maxv (((acc <<< f) ||| v) &&& maxAcc) (bits + f)).2)
        (by rw [hem2]; exact Nat.mod_lt _ ht)
        (fun x hx => hvals x (List.mem_cons_of_mem _ hx))
    refine ⟨(emitLoop t maxv (((acc <<< f) ||| v) &&& maxAcc) (bits + f)).1 ++ rest,
      accF, bitsF, ?_, hbF, ?_, ?_, ?_⟩
    · rw [cbLoop, if_neg (fun hne => hne hshift)]
      show (match cbLoop f t maxv maxAcc vs _ _ with
        | none => none
        | some (rest, accF, bitsF) => some (_ ++ rest, accF, bitsF)) = _
      rw [hrec]
    · rw [bitstream_append, List.append_assoc, hstream, hem2, ← List.append_assoc,
        hemstream, hkey, List.append_assoc, ← bitstream_cons]
    · intro x hx
      rcases List.mem_append.mp hx with h | h
      · exact hembound x h
      · exact hbound x h
    · rw [List.length_append, Nat.mul_add, hemlen, hem2] at *
      have hdm := Nat.div_add_mod (bits + f) t
      rw [List.length_cons, Nat.mul_succ]
      omega

theorem bitsOf_shiftLeft_recover (a k w : Nat) :
    bitsOf w ((a <<< k) >>> k) = bitsOf w a := by
  apply bitsOf_congr
  intro i _
  rw [Nat.testBit_shiftRight, Nat.testBit_shiftLeft]
  simp [Nat.le_add_right, Nat.add_sub_cancel_left]

theorem bitsOf_shiftLeft_low (a k w : Nat) (hw : w ≤ k) :
    bitsOf w (a <<< k) = List.replicate w false := by
  rw [← bitsOf_zero]
  apply bitsOf_congr
  intro i hi
  rw [Nat.testBit_shiftLeft]
  simp [Nat.not_le.mpr (Nat.lt_of_lt_of_le hi hw)]

theorem bitsOf_pad_chunk (acc b t : Nat) (hb : b ≤ t) :
    bitsOf t (acc <<< (t - b)) = bitsOf b acc ++ List.replicate (t - b) false := by
  have h : b + (t - b) = t := by omega
  calc bitsOf t (acc <<< (t - b))
      = bitsOf (b + (t - b)) (acc <<< (t - b)) :=
        (congrArg (fun w => bitsOf w (acc <<< (t - b))) h).symm
    _ = bitsOf b ((acc <<< (t - b)) >>> (t - b)) ++ bitsOf (t - b) (acc <<< (t - b)) :=
        bitsOf_split b (t - b) _
    _ = bitsOf b acc ++ List.replicate (t - b) false := by
        rw [bitsOf_shiftLeft_recover, bitsOf_shiftLeft_low _ _ _ (Nat.le_refl _)]

theorem convertbits_pad_spec (data : List Nat) (f t : Nat) (hf : 0 < f) (ht : 0 < t)
    (hdata : ∀ v ∈ data, v < 2 ^ f) :
    ∃ out k, convertbits data f t true = some out ∧
      (∀ x ∈ out, x < 2 ^ t) ∧ k < t ∧
      bitstream t out = bitstream f data ++ List.replicate k false ∧
      t * out.length = f * data.length + k := by
  have hmaxv : (1 <<< t) - 1 = 2 ^ t - 1 := by rw [Nat.one_shiftLeft]
  have hmaxAcc : (1 <<< (f + t - 1)) - 1 = 2 ^ (f + t - 1) - 1 := by rw [Nat.one_shiftLeft]
  obtain ⟨ret, accF, bitsF, hrun, hbF, hstream, hbound, hlen⟩ :=
    cbLoop_spec f t ((1 <<< t) - 1) ((1 <<< (f + t - 1)) - 1) hf ht hmaxv hmaxAcc
      data 0 0 ht hdata
  rw [show bitsOf 0 0 = ([] : List Bool) from rfl, List.nil_append] at hstream
  have hconv : convertbits data f t true =
      (if bitsF ≠ 0 then
        some (ret ++ [(accF <<< (t - bitsF)) &&& ((1 <<< t) - 1)])
      else some ret) := by
    rw [convertbits, hrun]
    rfl
  rw [hconv]
  by_cases hz : bitsF ≠ 0
  · rw [if_pos hz]
    refine ⟨ret ++ [(accF <<< (t - bitsF)) &&& ((1 <<< t) - 1)], t - bitsF, rfl, ?_, ?_, ?_, ?_⟩
    · intro x hx
      rcases List.mem_append.mp hx with h | h
      · exact hbound x h
      · rcases List.mem_singleton.mp h with rfl
        calc (accF <<< (t - bitsF)) &&& ((1 <<< t) - 1) ≤ (1 <<< t) - 1 := Nat.and_le_right
          _ < 2 ^ t := by rw [hmaxv]; exact Nat.sub_lt (Nat.two_pow_pos t) Nat.one_pos
    · omega
    · have hpad : bitsOf t ((accF <<< (t - bitsF)) &&& ((1 <<< t) - 1))
          = bitsOf bitsF accF ++ List.replicate (t - bitsF) false := by
        rw [hmaxv, bitsOf_and_two_pow_sub_one]
        exact bitsOf_pad_chunk accF bitsF t (Nat.le_of_lt hbF)
      rw [bitstream_append, bitstream_cons, bitstream_nil, List.append_nil, hpad,
        ← List.append_assoc, hstream]
    · rw [List.length_append, List.length_singleton, Nat.mul_add, Nat.mul_one]
      omega
  · rw [if_neg hz]
    push_neg at hz
    subst hz
    refine ⟨ret, 0, rfl, hbound, ht, ?_, by omega⟩
    rw [show bitsOf 0 accF = ([] : List Bool) from rfl, List.append_nil] at hstream
    rw [hstream, List.replicate_zero, List.append_nil]

theorem ofBits_replicate_false (n : Nat) : ofBits (List.replicate n false) = 0 := by
  rw [← bitsOf_zero]
  exact ofBits_bitsOf n 0 (Nat.two_pow_pos n)

theorem convertbits_unpad_recover (dataBytes out : List Nat) (f t k : Nat)
    (hf : 0 < f) (ht : 0 < t)
    (hbytes : ∀ v ∈ dataBytes, v < 2 ^ f)
    (hout : ∀ x ∈ out, x < 2 ^ t)
    (hk : k < t) (hkf : k < f)
    (hstream : bitstream t out = bitstream f dataBytes ++ List.replicate k false)
    (hlen : t * out.length = f * dataBytes.length + k) :
    convertbits out t f false = some dataBytes := by
  have hmaxv : (1 <<< f) - 1 = 2 ^ f - 1 := by rw [Nat.one_shiftLeft]
  have hmaxAcc : (1 <<< (t + f - 1)) - 1 = 2 ^ (t + f - 1) - 1 := by rw [Nat.one_shiftLeft]
  obtain ⟨ret, accF, bitsF, hrun, hbF, hstream2, hbound, hlen2⟩ :=
    cbLoop_spec t f ((1 <<< f) - 1) ((1 <<< (t + f - 1)) - 1) ht hf hmaxv hmaxAcc
      out 0 0 hf hout
  rw [show bitsOf 0 0 = ([] : List Bool) from rfl, List.nil_append, hstream] at hstream2
  rw [hlen, Nat.zero_add] at hlen2
  have hbFk : bitsF = k := by
    have h1 : (f * ret.length + bitsF) % f = bitsF % f := Nat.mul_add_mod f ret.length bitsF
    have h2 : (f * dataBytes.length + k) % f = k % f := Nat.mul_add_mod f dataBytes.length k
    rw [hlen2, h2] at h1
    rwa [Nat.mod_eq_of_lt hkf, Nat.mod_eq_of_lt hbF, eq_comm] at h1
  rw [hbFk] at hrun hstream2 hlen2
  have hretlen : ret.length = dataBytes.length := by
    have : f * ret.length = f * dataBytes.length := by omega
    exact Nat.eq_of_mul_eq_mul_left hf this
  have hsplit := List.append_inj hstream2
    (by rw [bitstream_length, bitstream_length, hretlen])
  have hret : ret = dataBytes :=
    bitstream_inj f ret dataBytes hbound hbytes hretlen hsplit.1
  have haccF : bitsOf k accF = List.replicate k false := hsplit.2
  have hpadzero : (accF <<< (f - k)) &&& ((1 <<< f) - 1) = 0 := by
    have hval : (accF <<< (f - k)) &&& ((1 <<< f) - 1) < 2 ^ f := by
      calc (accF <<< (f - k)) &&& ((1 <<< f) - 1) ≤ (1 <<< f) - 1 := Nat.and_le_right
        _ < 2 ^ f := by rw [hmaxv]; exact Nat.sub_lt (Nat.two_pow_pos f) Nat.one_pos
    have hbits : bitsOf f ((accF <<< (f - k)) &&& ((1 <<< f) - 1))
        = List.replicate f false := by
      rw [hmaxv, bitsOf_and_two_pow_sub_one,
        bitsOf_pad_chunk accF k f (Nat.le_of_lt hkf), haccF, ← List.replicate_add]
      congr 1
      omega
    have := congrArg ofBits hbits
    rw [ofBits_bitsOf f _ hval, ofBits_replicate_false] at this
    exact this
  have hconv : convertbits out t f false =
      (if t ≤ k ∨ (accF <<< (f - k)) &&& ((1 <<< f) - 1) ≠ 0 then none
       else some ret) := by
    rw [convertbits, hrun]
    rfl
  rw [hconv, if_neg, hret]
  intro hcontra
  rcases hcontra with h | h
  · exact absurd hk (Nat.not_lt.mpr h)
  · exact h hpadzero

/-! ### Hex digit round trip (binascii) -/

/-- The sixteen lowercase hexadecimal digit characters. -/
def lowercaseHexDigits : List Char := "0123456789abcdef".data

theorem hexDigit_roundtrip :
    ∀ c ∈ lowercaseHexDigits,
      (hexDigitValue c).isSome = true ∧ (hexDigitValue c).getD 0 < 16 ∧
      hexDigitChar ((hexDigitValue c).getD 0) = c := by decide

theorem unhexlify_roundtrip :
    ∀ n (l : List Char), (∀ c ∈ l, c ∈ lowercaseHexDigits) → l.length = 2 * n →
      ∃ bs, unhexlify l = some bs ∧ bs.length = n ∧ (∀ b ∈ bs, b < 256) ∧
        hexlify bs = l := by
  intro n
  induction n with
  | zero =>
    intro l _ hl
    have h0 : l = [] := List.length_eq_zero.mp (by omega)
    subst h0
    exact ⟨[], rfl, rfl, by simp, rfl⟩
  | succ n ih =>
    intro l hhex hl
    match l with
    | [] => simp at hl
    | [c] => simp at hl; omega
    | c1 :: c2 :: rest =>
      have hrest : rest.length = 2 * n := by
        simp only [List.length_cons] at hl
        omega
      obtain ⟨hs1, hb1, hc1⟩ := hexDigit_roundtrip c1 (hhex c1 (List.mem_cons_self _ _))
      obtain ⟨hs2, hb2, hc2⟩ := hexDigit_roundtrip c2
        (hhex c2 (List.mem_cons_of_mem _ (List.mem_cons_self _ _)))
      obtain ⟨v1, hv1⟩ := Option.isSome_iff_exists.mp hs1
      obtain ⟨v2, hv2⟩ := Option.isSome_iff_exists.mp hs2
      rw [hv1] at hb1 hc1
      rw [hv2] at hb2 hc2
      simp only [Option.getD_some] at hb1 hc1 hb2 hc2
      obtain ⟨bs, hbs, hlen, hbound, hhexlify⟩ := ih rest
        (fun c hc => hhex c (List.mem_cons_of_mem _ (List.mem_cons_of_mem _ hc))) hrest
      refine ⟨(16 * v1 + v2) :: bs, ?_, ?_, ?_, ?_⟩
      · rw [unhexlify, hv1, hv2, hbs]
      · simp [hlen]
      · intro b hb
        rcases List.mem_cons.mp hb with rfl | h
        · omega
        · exact hbound b h
      · rw [hexlify]
        have hd : (16 * v1 + v2) / 16 = v1 := by omega
        have hm : (16 * v1 + v2) % 16 = v2 := by omega
        rw [hd, hm, hc1, hc2, hhexlify]

/-! ### The BCH checksum: verify of create is true

bech32_polymod is a 30-bit linear-feedback register; the fact that
bech32_verify_checksum accepts exactly the output of
bech32_create_checksum is the linearity of the last six steps in the
injected five-bit checksum values. -/

theorem nat_xor_left_comm (a b c : Nat) : a ^^^ (b ^^^ c) = b ^^^ (a ^^^ c) := by
  rw [← Nat.xor_assoc, Nat.xor_comm a b, Nat.xor_assoc]

theorem shiftLeft_lt_two_pow (a k n : Nat) (h : a < 2 ^ n) : a <<< k < 2 ^ (n + k) := by
  rw [Nat.shiftLeft_eq, Nat.pow_add]
  exact (Nat.mul_lt_mul_right (Nat.two_pow_pos k)).mpr h

theorem shiftRight_xor_of_lt (x d k : Nat) (hd : d < 2 ^ k) :
    (x ^^^ d) >>> k = x >>> k := by
  apply Nat.eq_of_testBit_eq
  intro i
  rw [Nat.testBit_shiftRight, Nat.testBit_shiftRight, Nat.testBit_xor]
  have hdb : d.testBit (k + i) = false :=
    Nat.testBit_lt_two_pow (hd.trans_le (Nat.pow_le_pow_right (by norm_num) (Nat.le_add_right k i)))
  simp [hdb]

theorem and_mask_xor_of_lt (x d k : Nat) (hd : d < 2 ^ k) :
    (x ^^^ d) &&& (2 ^ k - 1) = (x &&& (2 ^ k - 1)) ^^^ d := by
  apply Nat.eq_of_testBit_eq
  intro i
  by_cases hik : i < k
  · simp [Nat.testBit_and, Nat.testBit_xor, Nat.testBit_two_pow_sub_one, hik]
  · have hdb : d.testBit i = false :=
      Nat.testBit_lt_two_pow (hd.trans_le (Nat.pow_le_pow_right (by norm_num) (Nat.le_of_not_lt hik)))
    simp [Nat.testBit_and, Nat.testBit_xor, Nat.testBit_two_pow_sub_one, hik, hdb]

theorem shiftLeft_xor_distrib (a b k : Nat) :
    (a ^^^ b) <<< k = (a <<< k) ^^^ (b <<< k) := by
  apply Nat.eq_of_testBit_eq
  intro i
  simp only [Nat.testBit_shiftLeft, Nat.testBit_xor]
  by_cases h : k ≤ i <;> simp [h]

theorem polymodStep_value (chk v : Nat) : polymodStep chk v = polymodStep chk 0 ^^^ v := by
  simp only [polymodStep, Nat.xor_zero]
  simp [Nat.xor_assoc, Nat.xor_comm, nat_xor_left_comm]

theorem polymodStep_state (x d v : Nat) (hd : d < 2 ^ 25) :
    polymodStep (x ^^^ d) v = polymodStep x v ^^^ (d <<< 5) := by
  have h1 : (x ^^^ d) >>> 25 = x >>> 25 := shiftRight_xor_of_lt x d 25 hd
  have hM : (0x1ffffff : Nat) = 2 ^ 25 - 1 := by norm_num
  have h2 : (x ^^^ d) &&& 0x1ffffff = (x &&& 0x1ffffff) ^^^ d := by
    rw [hM]
    exact and_mask_xor_of_lt x d 25 hd
  simp only [polymodStep, h1, h2, shiftLeft_xor_distrib]
  simp [Nat.xor_assoc, Nat.xor_comm, nat_xor_left_comm]

theorem polymodStep_accum (z d c : Nat) (hd : d < 2 ^ 25) :
    polymodStep (z ^^^ d) c = polymodStep z 0 ^^^ (c ^^^ d <<< 5) := by
  rw [polymodStep_state z d c hd, polymodStep_value z c, Nat.xor_assoc]

set_option maxHeartbeats 400000 in
theorem polymod_six_steps (S c0 c1 c2 c3 c4 c5 : Nat)
    (h0 : c0 < 32) (h1 : c1 < 32) (h2 : c2 < 32) (h3 : c3 < 32) (h4 : c4 < 32) :
    List.foldl polymodStep S [c0, c1, c2, c3, c4, c5]
      = List.foldl polymodStep S [0, 0, 0, 0, 0, 0]
        ^^^ (c0 <<< 25 ^^^ (c1 <<< 20 ^^^ (c2 <<< 15 ^^^ (c3 <<< 10 ^^^ (c4 <<< 5 ^^^ c5))))) := by
  have p5 : (32 : Nat) = 2 ^ 5 := by norm_num
  have b0 : c0 < 2 ^ 5 := by omega
  have b1 : c1 < 2 ^ 5 := by omega
  have b2 : c2 < 2 ^ 5 := by omega
  have b3 : c3 < 2 ^ 5 := by omega
  have b4 : c4 < 2 ^ 5 := by omega
  have mono : ∀ m n : Nat, m ≤ n → (2 : Nat) ^ m ≤ 2 ^ n :=
    fun m n h => Nat.pow_le_pow_right (by norm_num) h
  have d1 : c0 < 2 ^ 25 := b0.trans_le (mono 5 25 (by norm_num))
  have d2 : c1 ^^^ c0 <<< 5 < 2 ^ 10 :=
    Nat.xor_lt_two_pow (b1.trans_le (mono 5 10 (by norm_num)))
      (shiftLeft_lt_two_pow c0 5 5 b0)
  have d3 : c2 ^^^ (c1 ^^^ c0 <<< 5) <<< 5 < 2 ^ 15 :=
    Nat.xor_lt_two_pow (b2.trans_le (mono 5 15 (by norm_num)))
      (shiftLeft_lt_two_pow _ 5 10 d2)
  have d4 : c3 ^^^ (c2 ^^^ (c1 ^^^ c0 <<< 5) <<< 5) <<< 5 < 2 ^ 20 :=
    Nat.xor_lt_two_pow (b3.trans_le (mono 5 20 (by norm_num)))
      (shiftLeft_lt_two_pow _ 5 15 d3)
  have d5 : c4 ^^^ (c3 ^^^ (c2 ^^^ (c1 ^^^ c0 <<< 5) <<< 5) <<< 5) <<< 5 < 2 ^ 25 :=
    Nat.xor_lt_two_pow (b4.trans_le (mono 5 25 (by norm_num)))
      (shiftLeft_lt_two_pow _ 5 20 d4)
  simp only [List.foldl_cons, List.foldl_nil]
  rw [polymodStep_value S c0,
    polymodStep_accum (polymodStep S 0) c0 c1 d1,
    polymodStep_accum (polymodStep (polymodStep S 0) 0) (c1 ^^^ c0 <<< 5) c2
      (d2.trans_le (mono 10 25 (by norm_num))),
    polymodStep_accum _ (c2 ^^^ (c1 ^^^ c0 <<< 5) <<< 5) c3
      (d3.trans_le (mono 15 25 (by norm_num))),
    polymodStep_accum _ (c3 ^^^ (c2 ^^^ (c1 ^^^ c0 <<< 5) <<< 5) <<< 5) c4
      (d4.trans_le (mono 20 25 (by norm_num))),
    polymodStep_accum _ (c4 ^^^ (c3 ^^^ (c2 ^^^ (c1 ^^^ c0 <<< 5) <<< 5) <<< 5) <<< 5) c5 d5]
  have hD : (c5 ^^^ (c4 ^^^ (c3 ^^^ (c2 ^^^ (c1 ^^^ c0 <<< 5) <<< 5) <<< 5) <<< 5) <<< 5)
      = c0 <<< 25 ^^^ (c1 <<< 20 ^^^ (c2 <<< 15 ^^^ (c3 <<< 10 ^^^ (c4 <<< 5 ^^^ c5)))) := by
    simp only [shiftLeft_xor_distrib, ← Nat.shiftLeft_add]
    norm_num
    simp [Nat.xor_assoc, Nat.xor_comm, nat_xor_left_comm]
  rw [hD]

theorem checksum_reassemble (pm : Nat) (hpm : pm < 2 ^ 30) :
    ((pm >>> 25) &&& 31) <<< 25
      ^^^ (((pm >>> 20) &&& 31) <<< 20
      ^^^ (((pm >>> 15) &&& 31) <<< 15
      ^^^ (((pm >>> 10) &&& 31) <<< 10
      ^^^ (((pm >>> 5) &&& 31) <<< 5
      ^^^ (pm &&& 31))))) = pm := by
  have h31 : (31 : Nat) = 2 ^ 5 - 1 := by norm_num
  apply Nat.eq_of_testBit_eq
  intro i
  simp only [Nat.testBit_xor, Nat.testBit_shiftLeft, Nat.testBit_and, Nat.testBit_shiftRight,
    h31, Nat.testBit_two_pow_sub_one]
  rcases (by omega :
      i < 5 ∨ (5 ≤ i ∧ i < 10) ∨ (10 ≤ i ∧ i < 15) ∨ (15 ≤ i ∧ i < 20) ∨
      (20 ≤ i ∧ i < 25) ∨ (25 ≤ i ∧ i < 30) ∨ 30 ≤ i) with
    h | ⟨ha, hb⟩ | ⟨ha, hb⟩ | ⟨ha, hb⟩ | ⟨ha, hb⟩ | ⟨ha, hb⟩ | h
  · simp [show ¬(25 ≤ i) by omega, show ¬(20 ≤ i) by omega, show ¬(15 ≤ i) by omega,
      show ¬(10 ≤ i) by omega, show ¬(5 ≤ i) by omega, h]
  · simp [show ¬(25 ≤ i) by omega, show ¬(20 ≤ i) by omega, show ¬(15 ≤ i) by omega,
      show ¬(10 ≤ i) by omega, ha, show i - 5 < 5 by omega, show ¬(i < 5) by omega,
      show 5 + (i - 5) = i by omega]
  · simp [show ¬(25 ≤ i) by omega, show ¬(20 ≤ i) by omega, show ¬(15 ≤ i) by omega,
      show (10 : Nat) ≤ i from ha, show i - 10 < 5 by omega, show ¬(i - 5 < 5) by omega,
      show ¬(i < 5) by omega, show 10 + (i - 10) = i by omega, show (5 : Nat) ≤ i by omega]
  · simp [show ¬(25 ≤ i) by omega, show ¬(20 ≤ i) by omega, show (15 : Nat) ≤ i from ha,
      show i - 15 < 5 by omega, show ¬(i - 10 < 5) by omega, show ¬(i - 5 < 5) by omega,
      show ¬(i < 5) by omega, show 15 + (i - 15) = i by omega, show (10 : Nat) ≤ i by omega,
      show (5 : Nat) ≤ i by omega]
  · simp [show ¬(25 ≤ i) by omega, show (20 : Nat) ≤ i from ha, show i - 20 < 5 by omega,
      show ¬(i - 15 < 5) by omega, show ¬(i - 10 < 5) by omega, show ¬(i - 5 < 5) by omega,
      show ¬(i < 5) by omega, show 20 + (i - 20) = i by omega, show (15 : Nat) ≤ i by omega,
      show (10 : Nat) ≤ i by omega, show (5 : Nat) ≤ i by omega]
  · simp [show (25 : Nat) ≤ i from ha, show i - 25 < 5 by omega,
      show ¬(i - 20 < 5) by omega, show ¬(i - 15 < 5) by omega, show ¬(i - 10 < 5) by omega,
      show ¬(i - 5 < 5) by omega, show ¬(i < 5) by omega, show 25 + (i - 25) = i by omega,
      show (20 : Nat) ≤ i by omega, show (15 : Nat) ≤ i by omega,
      show (10 : Nat) ≤ i by omega, show (5 : Nat) ≤ i by omega]
  · have hbit : pm.testBit i = false :=
      Nat.testBit_lt_two_pow (hpm.trans_le (Nat.pow_le_pow_right (by norm_num) h))
    simp [show ¬(i - 25 < 5) by omega, show ¬(i - 20 < 5) by omega,
      show ¬(i - 15 < 5) by omega, show ¬(i - 10 < 5) by omega, show ¬(i - 5 < 5) by omega,
      show ¬(i < 5) by omega, hbit]

theorem polymodStep_lt (chk v : Nat) (hv : v < 2 ^ 30) : polymodStep chk v < 2 ^ 30 := by
  have hbase : ((chk &&& 0x1ffffff) <<< 5) < 2 ^ 30 := by
    have h1 : chk &&& 0x1ffffff < 2 ^ 25 := by
      have := Nat.and_le_right (n := chk) (m := 0x1ffffff)
      omega
    have := shiftLeft_lt_two_pow (chk &&& 0x1ffffff) 5 25 h1
    simpa using this
  have hcond : ∀ (c : Prop) [Decidable c] (g : Nat), g < 2 ^ 30 →
      (if c then g else 0) < 2 ^ 30 := by
    intro c _ g hg
    split
    · exact hg
    · exact Nat.two_pow_pos 30
  simp only [polymodStep]
  apply Nat.xor_lt_two_pow
  apply Nat.xor_lt_two_pow
  apply Nat.xor_lt_two_pow
  apply Nat.xor_lt_two_pow
  apply Nat.xor_lt_two_pow
  · exact Nat.xor_lt_two_pow hbase hv
  all_goals first
    | exact hcond _ _ (by norm_num)

theorem foldl_polymodStep_lt (values : List Nat) :
    ∀ chk, chk < 2 ^ 30 → (∀ v ∈ values, v < 2 ^ 30) →
      values.foldl polymodStep chk < 2 ^ 30 := by
  induction values with
  | nil => intro chk h _; exact h
  | cons v vs ih =>
    intro chk _ hvals
    rw [List.foldl_cons]
    exact ih (polymodStep chk v)
      (polymodStep_lt chk v (hvals v (List.mem_cons_self _ _)))
      (fun x hx => hvals x (List.mem_cons_of_mem _ hx))

theorem foldl_checksum_one (S : Nat) :
    List.foldl polymodStep S
      [((List.foldl polymodStep S [0, 0, 0, 0, 0, 0] ^^^ 1) >>> 25) &&& 31,
       ((List.foldl polymodStep S [0, 0, 0, 0, 0, 0] ^^^ 1) >>> 20) &&& 31,
       ((List.foldl polymodStep S [0, 0, 0, 0, 0, 0] ^^^ 1) >>> 15) &&& 31,
       ((List.foldl polymodStep S [0, 0, 0, 0, 0, 0] ^^^ 1) >>> 10) &&& 31,
       ((List.foldl polymodStep S [0, 0, 0, 0, 0, 0] ^^^ 1) >>> 5) &&& 31,
       (List.foldl polymodStep S [0, 0, 0, 0, 0, 0] ^^^ 1) &&& 31] = 1 := by
  have hZ : List.foldl polymodStep S [0, 0, 0, 0, 0, 0] < 2 ^ 30 := by
    simp only [List.foldl_cons, List.foldl_nil]
    exact polymodStep_lt _ 0 (by norm_num)
  have hpm : List.foldl polymodStep S [0, 0, 0, 0, 0, 0] ^^^ 1 < 2 ^ 30 :=
    Nat.xor_lt_two_pow hZ (by norm_num)
  have hb : ∀ x : Nat, x &&& 31 < 32 := by
    intro x
    have := Nat.and_le_right (n := x) (m := 31)
    omega
  rw [polymod_six_steps S _ _ _ _ _ _ (hb _) (hb _) (hb _) (hb _) (hb _),
    checksum_reassemble _ hpm, ← Nat.xor_assoc, Nat.xor_self, Nat.zero_xor]

theorem bech32_verify_create (hrp : List Char) (data : List Nat) :
    bech32_verify_checksum hrp (data ++ bech32_create_checksum hrp data) = true := by
  have hP : ∀ l1 l2 : List Nat, bech32_polymod (l1 ++ l2)
      = List.foldl polymodStep (List.foldl polymodStep 1 l1) l2 := by
    intro l1 l2
    rw [bech32_polymod, List.foldl_append]
  have hcs : bech32_create_checksum hrp data =
      [((bech32_polymod ((bech32_hrp_expand hrp ++ data) ++ [0, 0, 0, 0, 0, 0]) ^^^ 1) >>> 25) &&& 31,
       ((bech32_polymod ((bech32_hrp_expand hrp ++ data) ++ [0, 0, 0, 0, 0, 0]) ^^^ 1) >>> 20) &&& 31,
       ((bech32_polymod ((bech32_hrp_expand hrp ++ data) ++ [0, 0, 0, 0, 0, 0]) ^^^ 1) >>> 15) &&& 31,
       ((bech32_polymod ((bech32_hrp_expand hrp ++ data) ++ [0, 0, 0, 0, 0, 0]) ^^^ 1) >>> 10) &&& 31,
       ((bech32_polymod ((bech32_hrp_expand hrp ++ data) ++ [0, 0, 0, 0, 0, 0]) ^^^ 1) >>> 5) &&& 31,
       (bech32_polymod ((bech32_hrp_expand hrp ++ data) ++ [0, 0, 0, 0, 0, 0]) ^^^ 1) &&& 31] := rfl
  rw [bech32_verify_checksum, hcs, ← List.append_assoc, hP, hP]
  rw [foldl_checksum_one (List.foldl polymodStep 1 (bech32_hrp_expand hrp ++ data))]
  rfl

/-! ### Decoding an encoded npub string recovers hrp and data -/

theorem charset_facts :
    ∀ d, d < 32 →
      (33 ≤ (charsetGet d).toNat ∧ (charsetGet d).toNat ≤ 126) ∧
      Char.toLower (charsetGet d) = charsetGet d ∧
      charsetGet d ≠ '1' ∧
      CHARSET.contains (charsetGet d) = true ∧
      charsetIndex (charsetGet d) = d := by decide

theorem create_checksum_bound (hrp : List Char) (data : List Nat) :
    ∀ x ∈ bech32_create_checksum hrp data, x < 32 := by
  intro x hx
  rw [bech32_create_checksum] at hx
  simp only [List.mem_cons, List.not_mem_nil, or_false] at hx
  have hb : ∀ y : Nat, y &&& 31 < 32 := by
    intro y
    have := Nat.and_le_right (n := y) (m := 31)
    omega
  rcases hx with rfl | rfl | rfl | rfl | rfl | rfl <;> exact hb _

theorem create_checksum_length (hrp : List Char) (data : List Nat) :
    (bech32_create_checksum hrp data).length = 6 := rfl

theorem rfindChar_eq_none (l : List Char) (c : Char) (h : c ∉ l) :
    rfindChar l c = none := by
  induction l with
  | nil => rfl
  | cons a as ih =>
    rw [rfindChar, ih (fun hm => h (List.mem_cons_of_mem _ hm))]
    have hne : (a == c) = false := by
      refine beq_eq_false_iff_ne.mpr ?_
      rintro rfl
      exact h (List.mem_cons_self _ _)
    rw [hne]
    rfl

theorem rfindChar_npub (tail : List Char) (h : '1' ∉ tail) :
    rfindChar ('n' :: 'p' :: 'u' :: 'b' :: '1' :: tail) '1' = some 4 := by
  have h1 : rfindChar tail '1' = none := rfindChar_eq_none tail '1' h
  rw [rfindChar, rfindChar, rfindChar, rfindChar, rfindChar, h1]
  rfl

theorem bech32_decode_encode (data : List Nat) (hval : ∀ d ∈ data, d < 32)
    (hlen : data.length ≤ 79) :
    bech32_decode (bech32_encode "npub".data data) = some ("npub".data, data) := by
  have hcsval := create_checksum_bound "npub".data data
  have hall : ∀ d ∈ data ++ bech32_create_checksum "npub".data data, d < 32 := by
    intro d hd
    rcases List.mem_append.mp hd with h | h
    · exact hval d h
    · exact hcsval d h
  have htotlen : (data ++ bech32_create_checksum "npub".data data).length
      = data.length + 6 := by
    rw [List.length_append, create_checksum_length]
  have henc : bech32_encode "npub".data data
      = 'n' :: 'p' :: 'u' :: 'b' :: '1' ::
        (data ++ bech32_create_checksum "npub".data data).map charsetGet := rfl
  have hone : '1' ∉ (data ++ bech32_create_checksum "npub".data data).map charsetGet := by
    intro hm
    rcases List.mem_map.mp hm with ⟨d, hd, hEq⟩
    exact (charset_facts d (hall d hd)).2.2.1 hEq
  have hlower : pyLower (bech32_encode "npub".data data) = bech32_encode "npub".data data := by
    rw [pyLower]
    have := List.map_congr_left (l := bech32_encode "npub".data data)
      (f := Char.toLower) (g := id) ?_
    · rw [this, List.map_id]
    · intro c hc
      rw [henc] at hc
      simp only [List.mem_cons] at hc
      rcases hc with rfl | rfl | rfl | rfl | rfl | hc
      · rfl
      · rfl
      · rfl
      · rfl
      · rfl
      · rcases List.mem_map.mp hc with ⟨d, hd, rfl⟩
        exact (charset_facts d (hall d hd)).2.1
  have hrange : (bech32_encode "npub".data data).any
      (fun c => c.toNat < 33 || 126 < c.toNat) = false := by
    rw [List.any_eq_false]
    intro c hc
    rw [henc] at hc
    simp only [List.mem_cons] at hc
    rcases hc with rfl | rfl | rfl | rfl | rfl | hc
    · decide
    · decide
    · decide
    · decide
    · decide
    · rcases List.mem_map.mp hc with ⟨d, hd, rfl⟩
      obtain ⟨⟨hlo, hhi⟩, -, -, -, -⟩ := charset_facts d (hall d hd)
      simp only [Bool.or_eq_true, decide_eq_true_eq, not_or]
      omega
  have hrfind : rfindChar (bech32_encode "npub".data data) '1' = some 4 := by
    rw [henc]
    exact rfindChar_npub _ hone
  have henclen : (bech32_encode "npub".data data).length = data.length + 11 := by
    rw [henc, List.length_cons, List.length_cons, List.length_cons, List.length_cons,
      List.length_cons, List.length_map, List.length_append, create_checksum_length]
  rw [bech32_decode, if_neg (by rw [hrange]; exact Bool.false_ne_true), hlower,
    if_neg (fun hcontra => hcontra.1 rfl)]
  have hstage : bech32_decode_lowered (bech32_encode "npub".data data)
      = (if (4 : Nat) < 1 ∨ 4 + 7 > (bech32_encode "npub".data data).length ∨
            (bech32_encode "npub".data data).length > 90 then none
         else if ((bech32_encode "npub".data data).drop 5).all
             (fun c => CHARSET.contains c) then
           if bech32_verify_checksum ((bech32_encode "npub".data data).take 4)
               (((bech32_encode "npub".data data).drop 5).map charsetIndex) then
             some ((bech32_encode "npub".data data).take 4,
               (((bech32_encode "npub".data data).drop 5).map charsetIndex).take
                 ((((bech32_encode "npub".data data).drop 5).map charsetIndex).length - 6))
           else none
         else none) := by
    rw [bech32_decode_lowered, hrfind]
  rw [hstage, if_neg (by omega)]
  have hdrop : (bech32_encode "npub".data data).drop 5
      = (data ++ bech32_create_checksum "npub".data data).map charsetGet := by
    rw [henc]
    rfl
  have htake : (bech32_encode "npub".data data).take 4 = "npub".data := by
    rw [henc]
    rfl
  have hmapidx : ((data ++ bech32_create_checksum "npub".data data).map charsetGet).map
      charsetIndex = data ++ bech32_create_checksum "npub".data data := by
    rw [List.map_map]
    have := List.map_congr_left (l := data ++ bech32_create_checksum "npub".data data)
      (f := charsetIndex ∘ charsetGet) (g := id) ?_
    · rw [this, List.map_id]
    · intro d hd
      exact (charset_facts d (hall d hd)).2.2.2.2
  have hcontains : ((bech32_encode "npub".data data).drop 5).all
      (fun c => CHARSET.contains c) = true := by
    rw [hdrop, List.all_eq_true]
    intro c hc
    rcases List.mem_map.mp hc with ⟨d, hd, rfl⟩
    exact (charset_facts d (hall d hd)).2.2.2.1
  rw [if_pos hcontains, htake, hdrop, hmapidx,
    if_pos (bech32_verify_create "npub".data data)]
  rw [htotlen, Nat.add_sub_cancel, List.take_left' rfl]

/-- C10 amended: for every 64-character lowercase hexadecimal public key
h, convert_hex_to_npub succeeds and decode_npub returns exactly h: the
npub encoding round-trips.  (For uppercase hexadecimal input the round
trip returns the lowercase form instead; see the counterexample.) -/
theorem c10_npub_roundtrip_lower (h : String)
    (hlen : h.data.length = 64)
    (hhex : ∀ c ∈ h.data, c ∈ lowercaseHexDigits) :
    ∃ npub, convert_hex_to_npub h = Except.ok npub ∧
      decode_npub npub = Except.ok h := by
  obtain ⟨bytes, hbytes, hblen, hbbound, hhexlify⟩ :=
    unhexlify_roundtrip 32 h.data hhex (by rw [hlen])
  obtain ⟨out, k, hconv, houtb, hk, hstream, hlenk⟩ :=
    convertbits_pad_spec bytes 8 5 (by norm_num) (by norm_num)
      (fun v hv => by have := hbbound v hv; omega)
  have hk4 : k = 4 := by rw [hblen] at hlenk; omega
  have hout52 : out.length = 52 := by rw [hblen] at hlenk; omega
  refine ⟨String.mk (bech32_encode "npub".data out), ?_, ?_⟩
  · rw [convert_hex_to_npub, hbytes]
    show (match convertbits bytes 8 5 true with
      | none => Except.error "Error converting to npub"
      | some fiveBitR => Except.ok (String.mk (bech32_encode "npub".data fiveBitR)))
      = Except.ok (String.mk (bech32_encode "npub".data out))
    rw [hconv]
  · have hdec : bech32_decode (String.mk (bech32_encode "npub".data out)).data
        = some ("npub".data, out) :=
      bech32_decode_encode out (fun d hd => by have := houtb d hd; omega)
        (by omega)
    have hd2 : decode_npub (String.mk (bech32_encode "npub".data out)) =
        (if "npub".data ≠ "npub".data then Except.error "Invalid npub format"
         else match convertbits out 5 8 false with
           | none => Except.error "Unexpected error decoding npub"
           | some decodedBytes => Except.ok (String.mk (hexlify decodedBytes))) := by
      rw [decode_npub, hdec]
    rw [hd2, if_neg (fun hne => hne rfl)]
    have hrec : convertbits out 5 8 false = some bytes :=
      convertbits_unpad_recover bytes out 8 5 k (by norm_num) (by norm_num)
        (fun v hv => by have := hbbound v hv; omega) houtb hk (by omega)
        hstream (by omega)
    rw [hrec]
    have hmkh : String.mk h.data = h := by cases h; rfl
    show Except.ok (String.mk (hexlify bytes)) = Except.ok h
    rw [hhexlify, hmkh]

set_option maxRecDepth 20000 in
/-- C10 counterexample: the 64-character hexadecimal key written in
uppercase does not round-trip: the npub encodes the same bytes and
decoding returns the lowercase hexadecimal form, which differs from the
input. -/
theorem c10_npub_roundtrip_counterexample :
    convert_hex_to_npub
        "AAAAAAAAAAAAAAAAAAAAAAAAAAAAAAAAAAAAAAAAAAAAAAAAAAAAAAAAAAAAAAAA"
      = Except.ok "npub1424242424242424242424242424242424242424242424242424qamrcaj" ∧
    decode_npub "npub1424242424242424242424242424242424242424242424242424qamrcaj"
      = Except.ok "aaaaaaaaaaaaaaaaaaaaaaaaaaaaaaaaaaaaaaaaaaaaaaaaaaaaaaaaaaaaaaaa" ∧
    ("aaaaaaaaaaaaaaaaaaaaaaaaaaaaaaaaaaaaaaaaaaaaaaaaaaaaaaaaaaaaaaaa" : String)
      ≠ "AAAAAAAAAAAAAAAAAAAAAAAAAAAAAAAAAAAAAAAAAAAAAAAAAAAAAAAAAAAAAAAA" := by
  refine ⟨by rfl, by rfl, by decide⟩

set_option maxRecDepth 20000 in
/-- Witness for the amended C10 at the repository's own public key hex
(the decoded form of the npub appearing in main_basics_functions). -/
theorem c10_npub_roundtrip_lower_witness :
    ∃ npub, convert_hex_to_npub
        "2879af11e3ffc2e58efa6b1a57ad89bc2f1ea890ae9f968183fa610312d4a029"
      = Except.ok npub ∧
      decode_npub npub = Except.ok
        "2879af11e3ffc2e58efa6b1a57ad89bc2f1ea890ae9f968183fa610312d4a029" :=
  c10_npub_roundtrip_lower
    "2879af11e3ffc2e58efa6b1a57ad89bc2f1ea890ae9f968183fa610312d4a029"
    (by rfl) (by decide)

/-! ## Per-message decryption failure (main_basics_functions.decrypt_msg
and get_chat_for_pubkey)

decrypt_msg catches every decryption exception and returns the error
description string in place of the plaintext; get_chat_for_pubkey decodes
the target npub with the module's decode_npub (embedded above), looks the
raw pubkey up among the rooms, and builds the room view by mapping every
message to a direction/timestamp/content entry, the content being
decrypt_msg's result.  The decryption backend is the collaborator
parameter dec. -/

/-- main_basics_functions.decrypt_msg: the error description is returned
in place of the plaintext, never raised. -/
def decrypt_msg (dec : String → String → Except String String)
    (encrypted_message pubkey_hex : String) : String :=
  match dec encrypted_message pubkey_hex with
  | Except.ok plaintext => plaintext
  | Except.error e => e

/-- One entry of the room view built by get_chat_for_pubkey. -/
structure ChatMessageView where
  direction : String
  timestamp : Int
  content : String
deriving Repr, DecidableEq

/-- The room dictionary built by get_chat_for_pubkey. -/
structure ChatRoomView where
  chat_with : String
  messages : List ChatMessageView
deriving Repr, DecidableEq

/-- The two shapes get_chat_for_pubkey returns: the room view or an
error dictionary. -/
inductive ChatResult where
  | room (r : ChatRoomView)
  | errorResult (msg : String)
deriving Repr, DecidableEq

/-- The direction label exactly as the source computes it ("Received"
when the stored type tag is sent, "Sent" otherwise -- as written). -/
def directionLabel (t : MsgDir) : String :=
  match t with
  | MsgDir.sent => "Received"
  | MsgDir.received => "Sent"

/-- Python dict lookup over the room association list. -/
def lookupRoom : List (String × List TaggedMsg) → String → Option (List TaggedMsg)
  | [], _ => none
  | (k, ms) :: rest, key => if k == key then some ms else lookupRoom rest key

/-- main_basics_functions.get_chat_for_pubkey. -/
def get_chat_for_pubkey (rooms : List (String × List TaggedMsg)) (target_pubkey : String)
    (dec : String → String → Except String String) : ChatResult :=
  match decode_npub target_pubkey with
  | Except.error e =>
    ChatResult.errorResult ("An error occurred while retrieving the chat: " ++ e)
  | Except.ok target_raw_pubkey =>
    match lookupRoom rooms target_raw_pubkey with
    | some msgs =>
      ChatResult.room
        { chat_with := target_pubkey,
          messages := msgs.map (fun m =>
            { direction := directionLabel m.typ,
              timestamp := m.msg.createdAt,
              content := decrypt_msg dec m.msg.content target_raw_pubkey }) }
    | none => ChatResult.errorResult "No chat found with the specified public key."

/-- C9. A failed decryption surfaces as the error description in that
message's content slot (decrypt_msg returns it instead of raising), and
the room assembly as a whole still succeeds, producing one entry per
message of the room in order. -/
theorem c9_decrypt_failure_inline (dec : String → String → Except String String)
    (rooms : List (String × List TaggedMsg)) (target raw : String)
    (msgs : List TaggedMsg)
    (hdec : decode_npub target = Except.ok raw)
    (hroom : lookupRoom rooms raw = some msgs) :
    (∀ c pk e, dec c pk = Except.error e → decrypt_msg dec c pk = e) ∧
    get_chat_for_pubkey rooms target dec = ChatResult.room
      { chat_with := target,
        messages := msgs.map (fun m =>
          { direction := directionLabel m.typ,
            timestamp := m.msg.createdAt,
            content := decrypt_msg dec m.msg.content raw }) } := by
  constructor
  · intro c pk e he
    rw [decrypt_msg, he]
  · rw [get_chat_for_pubkey, hdec]
    show (match lookupRoom rooms raw with
      | some msgs =>
        ChatResult.room
          { chat_with := target,
            messages := msgs.map (fun (m : TaggedMsg) =>
              { direction := directionLabel m.typ,
                timestamp := m.msg.createdAt,
                content := decrypt_msg dec m.msg.content raw }) }
      | none => ChatResult.errorResult "No chat found with the specified public key.")
      = _
    rw [hroom]

/-- An always-failing decryption backend for the witness. -/
def decFailEx : String → String → Except String String :=
  fun _ _ => Except.error "Error decrypting message"

/-- A one-message room for the C9 witness, keyed by the raw form of the
npub appearing in the source. -/
def roomsEx : List (String × List TaggedMsg) :=
  [("2879af11e3ffc2e58efa6b1a57ad89bc2f1ea890ae9f968183fa610312d4a029",
    [TaggedMsg.mk MsgDir.received
      { pubkey := "2879af11e3ffc2e58efa6b1a57ad89bc2f1ea890ae9f968183fa610312d4a029",
        content := "garbled", tags := [], createdAt := 5 }])]

set_option maxRecDepth 20000 in
/-- Witness for C9: with a decryption backend that always fails, the
room view still assembles and carries the error description as the
message content. -/
theorem c9_decrypt_failure_inline_witness :
    decrypt_msg decFailEx "garbled"
        "2879af11e3ffc2e58efa6b1a57ad89bc2f1ea890ae9f968183fa610312d4a029"
      = "Error decrypting message" ∧
    get_chat_for_pubkey roomsEx
        "npub19pu67y0rllpwtrh6dvd90tvfhsh3a2ys460edqvrlfssxyk55q5sk9rwdw" decFailEx
      = ChatResult.room
        { chat_with := "npub19pu67y0rllpwtrh6dvd90tvfhsh3a2ys460edqvrlfssxyk55q5sk9rwdw",
          messages := [{ direction := "Sent", timestamp := 5,
                         content := "Error decrypting message" }] } := by
  refine ⟨?_, ?_⟩
  · exact (c9_decrypt_failure_inline decFailEx roomsEx
      "npub19pu67y0rllpwtrh6dvd90tvfhsh3a2ys460edqvrlfssxyk55q5sk9rwdw"
      "2879af11e3ffc2e58efa6b1a57ad89bc2f1ea890ae9f968183fa610312d4a029"
      (roomsEx.head!.2) (by rfl) (by rfl)).1 "garbled"
      "2879af11e3ffc2e58efa6b1a57ad89bc2f1ea890ae9f968183fa610312d4a029"
      "Error decrypting message" rfl
  · rw [(c9_decrypt_failure_inline decFailEx roomsEx
      "npub19pu67y0rllpwtrh6dvd90tvfhsh3a2ys460edqvrlfssxyk55q5sk9rwdw"
      "2879af11e3ffc2e58efa6b1a57ad89bc2f1ea890ae9f968183fa610312d4a029"
      (roomsEx.head!.2) (by rfl) (by rfl)).2]
    rfl
